import Mathlib

/-!
Verification development for the DeviceFinder repository
(src/device_agents.py, src/llm_provider.py, src/main.py, src/chatbot.py).

The Python code is shallowly embedded: Python `str` is `List Char`,
parsed JSON values are the inductive `Json` below (with Python `dict`
as an insertion-ordered association list, duplicate insertion replacing
the value in place exactly like CPython `dict.__setitem__`), fallible
code returns `Option`/`Except`, and wall-clock time is passed explicitly
as integer seconds.  Model restrictions, noted where they occur:
JSON numerals are modelled as integers only (the claims under study use
integer numerals exclusively; Python floats, NaN and Infinity are outside
the model), and `\uXXXX` escapes are decoded one code unit at a time
(surrogate pairs are never produced by the serializer modelled here).
-/

/-- Shorthand: Python strings are embedded as lists of characters. -/
def strL (s : String) : List Char := s.toList

/-- Parsed JSON values, the result type of `json.loads` in the embedding.
Objects are insertion-ordered association lists, mirroring CPython dicts. -/
inductive Json where
  | null : Json
  | bool (b : Bool) : Json
  | num (n : Int) : Json
  | str (s : List Char) : Json
  | arr (elems : List Json) : Json
  | obj (fields : List (List Char × Json)) : Json

/-- First-match lookup in an object's field list (`dict.__getitem__` /
`dict.get`; keys are unique in any dict that Python code can build). -/
def getKey (kvs : List (List Char × Json)) (k : List Char) : Option Json :=
  match kvs with
  | [] => none
  | (k', v) :: rest => if k' = k then some v else getKey rest k

/-- `dict.__setitem__`: replace the value at the original position when the
key exists, otherwise append the new binding at the end. -/
def setKey (kvs : List (List Char × Json)) (k : List Char) (v : Json) :
    List (List Char × Json) :=
  match kvs with
  | [] => [(k, v)]
  | (k', v') :: rest =>
      if k' = k then (k, v) :: rest else (k', v') :: setKey rest k v

/-- `k in d` for a Python dict. -/
def hasKey (kvs : List (List Char × Json)) (k : List Char) : Bool :=
  match kvs with
  | [] => false
  | (k', _) :: rest => k' = k || hasKey rest k

/-- Python truthiness of a parsed JSON value (`bool(v)`). -/
def jsonTruthy : Json → Bool
  | .null => false
  | .bool b => b
  | .num n => !(n = 0)
  | .str s => !s.isEmpty
  | .arr xs => !xs.isEmpty
  | .obj kvs => !kvs.isEmpty

/-- Truthiness of `d.get(k)`-style optional values (missing key is `None`). -/
def truthyOpt : Option Json → Bool
  | none => false
  | some v => jsonTruthy v

/-- Pairwise-distinct keys, the invariant of every Python dict. -/
def keysFresh : List (List Char × Json) → Bool
  | [] => true
  | (k, _) :: rest => !(hasKey rest k) && keysFresh rest

mutual

/-- Well-formedness: every object in the tree has pairwise-distinct keys.
Every value that Python's `json.loads` can produce is well formed. -/
def wfV : Json → Bool
  | .null => true
  | .bool _ => true
  | .num _ => true
  | .str _ => true
  | .arr xs => wfLs xs
  | .obj kvs => keysFresh kvs && wfFs kvs

/-- Well-formedness of an element list. -/
def wfLs : List Json → Bool
  | [] => true
  | x :: xs => wfV x && wfLs xs

/-- Well-formedness of the values of a field list. -/
def wfFs : List (List Char × Json) → Bool
  | [] => true
  | (_, v) :: rest => wfV v && wfFs rest

end

/- ===================================================================
JSON serialization: `json.dumps(v, ensure_ascii=False)` with CPython's
default separators `", "` and `": "`.
=================================================================== -/

/-- Lower-case hexadecimal digit, as used by `json.dumps` for `\u00xx`. -/
def hexDigitChar (n : Nat) : Char :=
  if n < 10 then Char.ofNat (48 + n) else Char.ofNat (87 + n)

/-- Escaping of one character inside a JSON string literal, following
CPython `json.encoder` with `ensure_ascii=False`: the two mandatory
escapes, the five short control escapes, `\u00xx` for the remaining
control characters, and everything else verbatim. -/
def escChar (c : Char) : List Char :=
  if c = '"' then ['\\', '"']
  else if c = '\\' then ['\\', '\\']
  else if c = '\n' then ['\\', 'n']
  else if c = '\t' then ['\\', 't']
  else if c = '\r' then ['\\', 'r']
  else if c = Char.ofNat 8 then ['\\', 'b']
  else if c = Char.ofNat 12 then ['\\', 'f']
  else if c.toNat < 32 then
    ['\\', 'u', '0', '0', hexDigitChar (c.toNat / 16), hexDigitChar (c.toNat % 16)]
  else [c]

/-- Escape a whole string body. -/
def escBody : List Char → List Char
  | [] => []
  | c :: rest => escChar c ++ escBody rest

/-- Decimal digits of a natural number, most significant first; the fuel
argument only bounds the recursion (`fuel > n` always suffices). -/
def natCharsAux : Nat → Nat → List Char
  | 0, _ => []
  | fuel + 1, n =>
      if n = 0 then []
      else natCharsAux fuel (n / 10) ++ [Char.ofNat (48 + n % 10)]

/-- Decimal rendering of a natural number. -/
def natChars (n : Nat) : List Char :=
  if n = 0 then ['0'] else natCharsAux (n + 1) n

/-- Decimal rendering of an integer (Python `repr` of an `int`). -/
def intChars (n : Int) : List Char :=
  if n < 0 then '-' :: natChars n.natAbs else natChars n.natAbs

mutual

/-- `json.dumps(v, ensure_ascii=False)` on the embedded value type. -/
def serJson : Json → List Char
  | .null => strL "null"
  | .bool true => strL "true"
  | .bool false => strL "false"
  | .num n => intChars n
  | .str s => '"' :: escBody s ++ ['"']
  | .arr xs => '[' :: serElems xs ++ [']']
  | .obj kvs => '{' :: serFields kvs ++ ['}']

/-- Array items joined by `", "`. -/
def serElems : List Json → List Char
  | [] => []
  | [x] => serJson x
  | x :: y :: xs => serJson x ++ ',' :: ' ' :: serElems (y :: xs)

/-- Object entries joined by `", "`, each rendered as `"key": value`. -/
def serFields : List (List Char × Json) → List Char
  | [] => []
  | [(k, v)] => '"' :: escBody k ++ '"' :: ':' :: ' ' :: serJson v
  | (k, v) :: p :: xs =>
      ('"' :: escBody k ++ '"' :: ':' :: ' ' :: serJson v) ++
        ',' :: ' ' :: serFields (p :: xs)

end

/-- One `"key": value` entry (abbreviation for the expression inlined in
`serFields`). -/
def serKV (k : List Char) (v : Json) : List Char :=
  '"' :: escBody k ++ '"' :: ':' :: ' ' :: serJson v

/- ===================================================================
Strict JSON parsing: the fragment of CPython `json.loads` needed here
(objects, arrays, double-quoted strings with escapes, integers,
`true`/`false`/`null`, the four JSON whitespace characters).  A numeral
continuing with `.`, `e` or `E` is rejected by this model (Python would
produce a float, which is outside the embedding), as is a bare control
character inside a string (strict mode) and any leading-zero numeral.
=================================================================== -/

/-- The four whitespace characters skipped by `json.loads`. -/
def isJWs (c : Char) : Bool :=
  c = ' ' || c = '\t' || c = '\n' || c = '\r'

/-- Drop leading JSON whitespace. -/
def skipWs : List Char → List Char
  | [] => []
  | c :: rest => if isJWs c then skipWs rest else c :: rest

/-- Value of a hexadecimal digit character. -/
def hexVal (c : Char) : Option Nat :=
  if 48 ≤ c.toNat ∧ c.toNat ≤ 57 then some (c.toNat - 48)
  else if 97 ≤ c.toNat ∧ c.toNat ≤ 102 then some (c.toNat - 87)
  else if 65 ≤ c.toNat ∧ c.toNat ≤ 70 then some (c.toNat - 55)
  else none

/-- Decoding of the short escapes after a backslash. -/
def escDecode (c : Char) : Option Char :=
  if c = '"' then some ('"')
  else if c = '\\' then some ('\\')
  else if c = '/' then some '/'
  else if c = 'b' then some (Char.ofNat 8)
  else if c = 'f' then some (Char.ofNat 12)
  else if c = 'n' then some ('\n')
  else if c = 'r' then some ('\r')
  else if c = 't' then some ('\t')
  else none

/-- Parse a string body after the opening quote, returning the decoded
body and the text after the closing quote. -/
def parseStr : List Char → Option (List Char × List Char)
  | [] => none
  | c :: rest =>
    if c = '"' then some ([], rest)
    else if c = '\\' then
      match rest with
      | [] => none
      | e :: rest2 =>
        if e = 'u' then
          match rest2 with
          | h1 :: h2 :: h3 :: h4 :: rest3 =>
            match hexVal h1, hexVal h2, hexVal h3, hexVal h4 with
            | some a, some b, some c2, some d =>
              match parseStr rest3 with
              | some (s, r) => some (Char.ofNat (((a * 16 + b) * 16 + c2) * 16 + d) :: s, r)
              | none => none
            | _, _, _, _ => none
          | _ => none
        else
          match escDecode e with
          | some d =>
            match parseStr rest2 with
            | some (s, r) => some (d :: s, r)
            | none => none
          | none => none
    else if c.toNat < 32 then none
    else
      match parseStr rest with
      | some (s, r) => some (c :: s, r)
      | none => none

/-- Value of a decimal digit character. -/
def digitVal (c : Char) : Option Nat :=
  if 48 ≤ c.toNat ∧ c.toNat ≤ 57 then some (c.toNat - 48) else none

/-- Longest digit run at the head of the text. -/
def takeDigits : List Char → List Nat × List Char
  | [] => ([], [])
  | c :: rest =>
    match digitVal c with
    | some d =>
      match takeDigits rest with
      | (ds, r) => (d :: ds, r)
    | none => ([], c :: rest)

/-- Value of a most-significant-first digit list. -/
def foldDigits (ds : List Nat) : Nat :=
  ds.foldl (fun a d => a * 10 + d) 0

/-- Parse an unsigned strict-JSON integer numeral (no leading zeros;
rejected if a fraction or exponent follows, see the model note above). -/
def parseNatNum (l : List Char) : Option (Nat × List Char) :=
  match takeDigits l with
  | ([], _) => none
  | (d :: ds, r) =>
    if d = 0 ∧ ds ≠ [] then none
    else
      match r with
      | [] => some (foldDigits (d :: ds), [])
      | c :: _ =>
        if c = '.' ∨ c = 'e' ∨ c = 'E' then none
        else some (foldDigits (d :: ds), r)

/-- Parse a signed integer numeral. -/
def parseNum (l : List Char) : Option (Int × List Char) :=
  match l with
  | '-' :: rest =>
    match parseNatNum rest with
    | some (n, r) => some (-(n : Int), r)
    | none => none
  | _ =>
    match parseNatNum l with
    | some (n, r) => some ((n : Int), r)
    | none => none

/-- Assemble parsed object entries with dict semantics (last value wins,
first position kept). -/
def assembleFields (ps : List (List Char × Json)) : List (List Char × Json) :=
  ps.foldl (fun acc kv => setKey acc kv.1 kv.2) []

mutual

/-- Parse one JSON value at the head of the text (no leading whitespace);
the fuel bounds recursion depth and is always given generously. -/
def parseValue : Nat → List Char → Option (Json × List Char)
  | 0, _ => none
  | fuel + 1, l =>
    match l with
    | [] => none
    | c :: rest =>
      if c = 'n' then
        match rest with
        | 'u' :: 'l' :: 'l' :: r => some (.null, r)
        | _ => none
      else if c = 't' then
        match rest with
        | 'r' :: 'u' :: 'e' :: r => some (.bool true, r)
        | _ => none
      else if c = 'f' then
        match rest with
        | 'a' :: 'l' :: 's' :: 'e' :: r => some (.bool false, r)
        | _ => none
      else if c = '"' then
        match parseStr rest with
        | some (s, r) => some (.str s, r)
        | none => none
      else if c = '[' then
        match skipWs rest with
        | [] => none
        | w :: r2 =>
          if w = ']' then some (.arr [], r2)
          else
            match parseElems fuel (w :: r2) with
            | some (xs, r) => some (.arr xs, r)
            | none => none
      else if c = '{' then
        match skipWs rest with
        | [] => none
        | w :: r2 =>
          if w = '}' then some (.obj [], r2)
          else
            match parseFieldList fuel (w :: r2) with
            | some (ps, r) => some (.obj (assembleFields ps), r)
            | none => none
      else
        match parseNum l with
        | some (n, r) => some (.num n, r)
        | none => none

/-- Parse the non-empty element list of an array, consuming the closing
bracket. -/
def parseElems : Nat → List Char → Option (List Json × List Char)
  | 0, _ => none
  | fuel + 1, l =>
    match parseValue fuel l with
    | none => none
    | some (v, r) =>
      match skipWs r with
      | [] => none
      | w :: r2 =>
        if w = ',' then
          match parseElems fuel (skipWs r2) with
          | some (vs, r3) => some (v :: vs, r3)
          | none => none
        else if w = ']' then some ([v], r2)
        else none

/-- Parse the non-empty entry list of an object, consuming the closing
brace. -/
def parseFieldList : Nat → List Char → Option (List (List Char × Json) × List Char)
  | 0, _ => none
  | fuel + 1, l =>
    match l with
    | c :: rest =>
      if c = '"' then
        match parseStr rest with
        | some (k, r) =>
          match skipWs r with
          | [] => none
          | w :: r2 =>
            if w = ':' then
              match parseValue fuel (skipWs r2) with
              | some (v, r3) =>
                match skipWs r3 with
                | [] => none
                | w2 :: r4 =>
                  if w2 = ',' then
                    match parseFieldList fuel (skipWs r4) with
                    | some (ps, r5) => some ((k, v) :: ps, r5)
                    | none => none
                  else if w2 = '}' then some ([(k, v)], r4)
                  else none
              | none => none
            else none
        | none => none
      else none
    | [] => none

end

/-- `json.loads`: strict parse of a complete text (only whitespace may
surround the single top-level value). -/
def jsonParse (l : List Char) : Option Json :=
  match parseValue (l.length + 1) (skipWs l) with
  | some (v, r) => if skipWs r = [] then some v else none
  | none => none

example : jsonParse (strL "am" ++ ['"', 'a', '"']) = none := by rfl

example :
    jsonParse (['{', '"', 'a', '"', ':', ' ', '1', '}']) =
      some (.obj [(['a'], .num 1)]) := by rfl

example : jsonParse (strL " -120 ") = some (.num (-120)) := by rfl

example : serJson (.obj [(['a'], .num 1)]) =
    ['{', '"', 'a', '"', ':', ' ', '1', '}'] := by rfl

/- ===================================================================
Round trip: `jsonParse (serJson v) = some v` for every well-formed value.
=================================================================== -/

theorem toNat_ofNat_small (n : Nat) (h : n < 0xd800) : (Char.ofNat n).toNat = n := by
  have hv : Nat.isValidChar n := Or.inl h
  unfold Char.ofNat
  rw [dif_pos hv]
  rfl

theorem digitVal_ofNat (d : Nat) (h : d < 10) :
    digitVal (Char.ofNat (48 + d)) = some d := by
  have ht : (Char.ofNat (48 + d)).toNat = 48 + d := toNat_ofNat_small _ (by omega)
  unfold digitVal
  rw [ht, if_pos ⟨by omega, by omega⟩]
  congr 1
  omega

theorem natCharsAux_zero (f : Nat) : natCharsAux f 0 = [] := by
  cases f <;> simp [natCharsAux]

theorem natCharsAux_digits (f : Nat) :
    ∀ n, n < f → ∀ c ∈ natCharsAux f n, ∃ d, d < 10 ∧ c = Char.ofNat (48 + d) := by
  induction f with
  | zero => intro n hn; omega
  | succ f ih =>
    intro n hn c hc
    by_cases h0 : n = 0
    · simp [natCharsAux, h0] at hc
    · rw [natCharsAux, if_neg h0] at hc
      rcases List.mem_append.mp hc with h | h
      · have hdiv : n / 10 < n := Nat.div_lt_self (Nat.pos_of_ne_zero h0) (by omega)
        exact ih (n / 10) (by omega) c h
      · exact ⟨n % 10, Nat.mod_lt _ (by omega), by simpa using h⟩

theorem natCharsAux_head (f : Nat) :
    ∀ n, n < f → 0 < n →
      ∃ d t, natCharsAux f n = Char.ofNat (48 + d) :: t ∧ d ≠ 0 ∧ d < 10 := by
  induction f with
  | zero => intro n hn; omega
  | succ f ih =>
    intro n hn h0
    rw [natCharsAux, if_neg (by omega)]
    by_cases hq : n / 10 = 0
    · have hlt : n < 10 := by omega
      refine ⟨n % 10, [], ?_, by omega, Nat.mod_lt _ (by omega)⟩
      rw [hq, natCharsAux_zero]
      simp
    · have hdiv : n / 10 < n := Nat.div_lt_self h0 (by omega)
      obtain ⟨d, t, ht, hd0, hd10⟩ := ih (n / 10) (by omega) (Nat.pos_of_ne_zero hq)
      exact ⟨d, t ++ [Char.ofNat (48 + n % 10)], by rw [ht]; simp, hd0, hd10⟩

theorem natCharsAux_val (f : Nat) :
    ∀ n, n < f → ∀ acc : Nat,
      List.foldl (fun a d => a * 10 + d) acc ((natCharsAux f n).map (fun c => c.toNat - 48)) =
        acc * 10 ^ (natCharsAux f n).length + n := by
  induction f with
  | zero => intro n hn; omega
  | succ f ih =>
    intro n hn acc
    by_cases h0 : n = 0
    · simp [natCharsAux, h0]
    · rw [natCharsAux, if_neg h0]
      have hq : n / 10 < f := by
        have hdiv : n / 10 < n := Nat.div_lt_self (Nat.pos_of_ne_zero h0) (by omega)
        omega
      have hchar : (Char.ofNat (48 + n % 10)).toNat - 48 = n % 10 := by
        have hm : n % 10 < 10 := Nat.mod_lt n (by omega)
        rw [toNat_ofNat_small _ (by omega)]
        omega
      rw [List.map_append, List.foldl_append, ih (n / 10) hq acc]
      simp only [List.map_cons, List.map_nil, List.foldl_cons, List.foldl_nil,
        List.length_append, List.length_map, List.length_cons, List.length_nil]
      rw [hchar]
      have hdm : 10 * (n / 10) + n % 10 = n := Nat.div_add_mod n 10
      calc (acc * 10 ^ (natCharsAux f (n / 10)).length + n / 10) * 10 + n % 10
          = acc * (10 ^ (natCharsAux f (n / 10)).length * 10) + (10 * (n / 10) + n % 10) := by
            ring
        _ = acc * 10 ^ ((natCharsAux f (n / 10)).length + 1) + n := by
            rw [hdm, pow_succ]

/-- Heads of the remaining text that cannot extend a numeral. -/
def numSafe : List Char → Prop
  | [] => True
  | c :: _ => digitVal c = none ∧ c ≠ '.' ∧ c ≠ 'e' ∧ c ≠ 'E'

theorem takeDigits_digits (l : List Char)
    (hl : ∀ c ∈ l, ∃ d, d < 10 ∧ c = Char.ofNat (48 + d)) (rest : List Char)
    (hr : numSafe rest) :
    takeDigits (l ++ rest) = (l.map (fun c => c.toNat - 48), rest) := by
  induction l with
  | nil =>
    cases rest with
    | nil => rfl
    | cons c r => simp [takeDigits, hr.1]
  | cons c l ih =>
    obtain ⟨d, hd, rfl⟩ := hl c (List.mem_cons_self c l)
    have h1 : digitVal (Char.ofNat (48 + d)) = some d := digitVal_ofNat d hd
    have h2 : (Char.ofNat (48 + d)).toNat - 48 = d := by
      rw [toNat_ofNat_small _ (by omega)]; omega
    have ih' := ih (fun c hc => hl c (by simp [hc]))
    simp only [List.cons_append, takeDigits, h1, List.map_cons, h2, List.append_eq, ih']

theorem parseNatNum_natChars (n : Nat) (rest : List Char) (hr : numSafe rest) :
    parseNatNum (natChars n ++ rest) = some (n, rest) := by
  by_cases h0 : n = 0
  · subst h0
    have htake : takeDigits (['0'] ++ rest) = ([0], rest) := by
      have := takeDigits_digits ['0']
        (by intro c hc; exact ⟨0, by omega, by simpa using hc⟩) rest hr
      simpa using this
    rw [natChars, if_pos rfl, parseNatNum, htake]
    cases rest with
    | nil => rfl
    | cons c r =>
      obtain ⟨-, hd, he, hE⟩ := hr
      simp [hd, he, hE, foldDigits]
  · obtain ⟨d, t, ht, hd0, hd10⟩ := natCharsAux_head (n + 1) n (by omega) (Nat.pos_of_ne_zero h0)
    have hdigs := natCharsAux_digits (n + 1) n (by omega)
    have hdv : (Char.ofNat (48 + d)).toNat - 48 = d := by
      rw [toNat_ofNat_small _ (by omega)]; omega
    have hlist : (natCharsAux (n + 1) n).map (fun c => c.toNat - 48) =
        d :: t.map (fun c => c.toNat - 48) := by
      rw [ht]
      simp [hdv]
    have htake : takeDigits (natCharsAux (n + 1) n ++ rest) =
        (d :: t.map (fun c => c.toNat - 48), rest) := by
      rw [takeDigits_digits _ hdigs rest hr, hlist]
    have hval : foldDigits (d :: t.map (fun c => c.toNat - 48)) = n := by
      rw [← hlist]
      have := natCharsAux_val (n + 1) n (by omega) 0
      simpa [foldDigits] using this
    cases rest with
    | nil =>
      rw [natChars, if_neg h0, parseNatNum, htake]
      simp [hd0, hval]
    | cons c r =>
      obtain ⟨-, hdot, he, hE⟩ := hr
      rw [natChars, if_neg h0, parseNatNum, htake]
      simp [hd0, hdot, he, hE, hval]

theorem natChars_head (n : Nat) :
    ∃ d t, d < 10 ∧ natChars n = Char.ofNat (48 + d) :: t := by
  by_cases h0 : n = 0
  · refine ⟨0, [], by omega, ?_⟩
    rw [h0, natChars, if_pos rfl]
  · obtain ⟨d, t, ht, _, hd10⟩ := natCharsAux_head (n + 1) n (by omega) (Nat.pos_of_ne_zero h0)
    exact ⟨d, t, hd10, by rw [natChars, if_neg h0, ht]⟩

theorem parseNum_intChars (n : Int) (rest : List Char) (hr : numSafe rest) :
    parseNum (intChars n ++ rest) = some (n, rest) := by
  by_cases hneg : n < 0
  · have habs : -((n.natAbs : Nat) : Int) = n := by omega
    rw [intChars, if_pos hneg]
    show parseNum ('-' :: (natChars n.natAbs ++ rest)) = some (n, rest)
    simp only [parseNum, parseNatNum_natChars n.natAbs rest hr, habs]
  · obtain ⟨d, t, hd10, ht⟩ := natChars_head n.natAbs
    have habs : ((n.natAbs : Nat) : Int) = n := by omega
    have hne : Char.ofNat (48 + d) ≠ '-' := by
      intro h
      have h2 := congrArg Char.toNat h
      rw [toNat_ofNat_small _ (by omega)] at h2
      have h45 : ('-').toNat = 45 := rfl
      rw [h45] at h2
      omega
    rw [intChars, if_neg hneg, ht]
    rw [parseNum.eq_def]
    simp only [List.cons_append]
    split
    · next heq => exact absurd (List.head_eq_of_cons_eq heq) hne
    · rw [← List.cons_append, ← ht, parseNatNum_natChars n.natAbs rest hr]
      simp [habs]

theorem hexVal_hexDigitChar : ∀ x, x < 16 → hexVal (hexDigitChar x) = some x := by decide

theorem char_ne_of_toNat {c c' : Char} (h : c.toNat ≠ c'.toNat) : c ≠ c' :=
  fun he => h (he ▸ rfl)

theorem parseStr_escBody (s rest : List Char) :
    parseStr (escBody s ++ '"' :: rest) = some (s, rest) := by
  induction s with
  | nil =>
    rw [escBody, List.nil_append, parseStr.eq_def]
    simp
  | cons c s ih =>
    rw [escBody, List.append_assoc]
    unfold escChar
    split_ifs with h1 h2 h3 h4 h5 h6 h7 h8
    · subst h1; rw [parseStr.eq_def]; simp [escDecode, ih]
    · subst h2; rw [parseStr.eq_def]; simp [escDecode, ih]
    · subst h3; rw [parseStr.eq_def]; simp [escDecode, ih]
    · subst h4; rw [parseStr.eq_def]; simp [escDecode, ih]
    · subst h5; rw [parseStr.eq_def]; simp [escDecode, ih]
    · subst h6; rw [parseStr.eq_def]; simp [escDecode, ih]
    · subst h7; rw [parseStr.eq_def]; simp [escDecode, ih]
    · have ha : hexVal (hexDigitChar (c.toNat / 16)) = some (c.toNat / 16) :=
        hexVal_hexDigitChar _ (by omega)
      have hb : hexVal (hexDigitChar (c.toNat % 16)) = some (c.toNat % 16) :=
        hexVal_hexDigitChar _ (Nat.mod_lt _ (by omega))
      have hcode : ((0 * 16 + 0) * 16 + c.toNat / 16) * 16 + c.toNat % 16 = c.toNat := by
        omega
      have h0 : hexVal '0' = some 0 := rfl
      have hcode2 : c.toNat / 16 * 16 + c.toNat % 16 = c.toNat := by omega
      rw [parseStr.eq_def]
      simp [h0, ha, hb, hcode, Char.ofNat_toNat, ih, hcode2]
    · rw [parseStr.eq_def]
      simp [h1, h2, h8, ih]

/-- Every serialized value starts with a character that is not JSON
whitespace and is not a closing bracket, brace or comma. -/
theorem serJson_head (v : Json) :
    ∃ c t, serJson v = c :: t ∧ isJWs c = false ∧ c ≠ ']' ∧ c ≠ '}' := by
  have digitP : ∀ d, d < 10 →
      isJWs (Char.ofNat (48 + d)) = false ∧ Char.ofNat (48 + d) ≠ ']' ∧
        Char.ofNat (48 + d) ≠ '}' := by
    intro d hd
    have ht : (Char.ofNat (48 + d)).toNat = 48 + d := toNat_ofNat_small _ (by omega)
    refine ⟨?_, ?_, ?_⟩
    · simp only [isJWs, Bool.or_eq_false_iff, decide_eq_false_iff_not]
      refine ⟨⟨⟨?_, ?_⟩, ?_⟩, ?_⟩
      · exact char_ne_of_toNat (by rw [ht]; have h32 : (' ').toNat = 32 := rfl; omega)
      · exact char_ne_of_toNat (by rw [ht]; have h9 : ('\t').toNat = 9 := rfl; omega)
      · exact char_ne_of_toNat (by rw [ht]; have h10 : ('\n').toNat = 10 := rfl; omega)
      · exact char_ne_of_toNat (by rw [ht]; have h13 : ('\r').toNat = 13 := rfl; omega)
    · exact char_ne_of_toNat (by rw [ht]; have h93 : (']').toNat = 93 := rfl; omega)
    · exact char_ne_of_toNat (by rw [ht]; have h125 : ('}').toNat = 125 := rfl; omega)
  cases v with
  | null => exact ⟨'n', strL "ull", rfl, by decide, by decide, by decide⟩
  | bool b =>
    cases b with
    | true => exact ⟨'t', strL "rue", rfl, by decide, by decide, by decide⟩
    | false => exact ⟨'f', strL "alse", rfl, by decide, by decide, by decide⟩
  | num n =>
    by_cases hneg : n < 0
    · exact ⟨'-', natChars n.natAbs, by simp [serJson, intChars, hneg], by decide,
        by decide, by decide⟩
    · obtain ⟨d, t, hd10, ht⟩ := natChars_head n.natAbs
      obtain ⟨p1, p2, p3⟩ := digitP d hd10
      exact ⟨Char.ofNat (48 + d), t, by simp [serJson, intChars, hneg, ht], p1, p2, p3⟩
  | str s =>
    exact ⟨'"', escBody s ++ ['"'], by simp [serJson], by decide,
      by decide, by decide⟩
  | arr xs => exact ⟨'[', serElems xs ++ [']'], by simp [serJson], by decide, by decide, by decide⟩
  | obj kvs =>
    exact ⟨'{', serFields kvs ++ ['}'], by simp [serJson], by decide,
      by decide, by decide⟩

/-- Head shape of the serialization of a non-empty element list. -/
theorem serElems_head (y : Json) (ys : List Json) :
    ∃ c t, serElems (y :: ys) = c :: t ∧ isJWs c = false ∧ c ≠ ']' ∧ c ≠ '}' := by
  obtain ⟨c, t, hct, h1, h2, h3⟩ := serJson_head y
  cases ys with
  | nil => exact ⟨c, t, by simp [serElems, hct], h1, h2, h3⟩
  | cons z zs =>
    exact ⟨c, t ++ ',' :: ' ' :: serElems (z :: zs), by simp [serElems, hct], h1, h2, h3⟩

mutual

/-- Parser-call budget of a value: one `parseValue` call per node. -/
def nodesV : Json → Nat
  | .null => 1
  | .bool _ => 1
  | .num _ => 1
  | .str _ => 1
  | .arr xs => nodesL xs + 1
  | .obj kvs => nodesF kvs + 1

/-- Parser-call budget of an element list. -/
def nodesL : List Json → Nat
  | [] => 0
  | x :: xs => nodesV x + nodesL xs + 1

/-- Parser-call budget of a field list. -/
def nodesF : List (List Char × Json) → Nat
  | [] => 0
  | (_, v) :: xs => nodesV v + nodesF xs + 1

end

theorem natChars_ne_nil (n : Nat) : natChars n ≠ [] := by
  obtain ⟨d, t, _, ht⟩ := natChars_head n
  simp [ht]

theorem intChars_length_pos (n : Int) : 1 ≤ (intChars n).length := by
  rw [intChars]
  split
  · simp
  · have := natChars_ne_nil n.natAbs
    cases h : natChars n.natAbs with
    | nil => exact absurd h this
    | cons c t => simp [h]

mutual

theorem nodesV_le_len : (v : Json) → nodesV v ≤ (serJson v).length
  | .null => by simp [nodesV, serJson, strL]
  | .bool b => by cases b <;> simp [nodesV, serJson, strL]
  | .num n => by
    have := intChars_length_pos n
    simp only [nodesV, serJson]
    omega
  | .str s => by simp [nodesV, serJson]
  | .arr xs => by
    have := nodesL_le_len xs
    simp only [nodesV, serJson, List.length_cons, List.length_append, List.length_singleton]
    omega
  | .obj kvs => by
    have := nodesF_le_len kvs
    simp only [nodesV, serJson, List.length_cons, List.length_append, List.length_singleton]
    omega

theorem nodesL_le_len : (xs : List Json) → nodesL xs ≤ (serElems xs).length + 1
  | [] => by simp [nodesL]
  | [x] => by
    have := nodesV_le_len x
    simp only [nodesL, serElems]
    omega
  | x :: y :: xs => by
    have h1 := nodesV_le_len x
    have h2 := nodesL_le_len (y :: xs)
    simp only [nodesL] at h2 ⊢
    simp only [serElems, List.length_append, List.length_cons]
    omega

theorem nodesF_le_len : (kvs : List (List Char × Json)) → nodesF kvs ≤ (serFields kvs).length + 1
  | [] => by simp [nodesF]
  | [(k, v)] => by
    have := nodesV_le_len v
    simp only [nodesF, serFields, List.length_append, List.length_cons]
    omega
  | (k, v) :: p :: xs => by
    have h1 := nodesV_le_len v
    have h2 := nodesF_le_len (p :: xs)
    simp only [nodesF] at h2 ⊢
    simp only [serFields, List.length_append, List.length_cons]
    omega

end

theorem nodesV_pos (v : Json) : 1 ≤ nodesV v := by
  cases v <;> simp only [nodesV] <;> omega

theorem nodesL_pos_of_ne_nil {xs : List Json} (h : xs ≠ []) : 1 ≤ nodesL xs := by
  cases xs with
  | nil => exact absurd rfl h
  | cons x xs => simp only [nodesL]; omega

theorem nodesF_pos_of_ne_nil {kvs : List (List Char × Json)} (h : kvs ≠ []) :
    1 ≤ nodesF kvs := by
  cases kvs with
  | nil => exact absurd rfl h
  | cons p kvs =>
    obtain ⟨k, v⟩ := p
    simp only [nodesF]
    omega

/- Association-list lemmas used for object assembly. -/

theorem hasKey_append (l1 l2 : List (List Char × Json)) (k : List Char) :
    hasKey (l1 ++ l2) k = (hasKey l1 k || hasKey l2 k) := by
  induction l1 with
  | nil => simp [hasKey]
  | cons p l1 ih =>
    obtain ⟨k', v'⟩ := p
    simp [hasKey, ih, Bool.or_assoc]

theorem ne_of_not_hasKey {kvs : List (List Char × Json)} {k : List Char}
    (h : hasKey kvs k = false) : ∀ p ∈ kvs, p.1 ≠ k := by
  induction kvs with
  | nil => intro p hp; simp at hp
  | cons q kvs ih =>
    obtain ⟨k', v'⟩ := q
    simp only [hasKey, Bool.or_eq_false_iff, decide_eq_false_iff_not] at h
    intro p hp
    rcases List.mem_cons.mp hp with rfl | hp
    · exact h.1
    · exact ih h.2 p hp

theorem setKey_of_not_hasKey {kvs : List (List Char × Json)} {k : List Char}
    (h : hasKey kvs k = false) (v : Json) : setKey kvs k v = kvs ++ [(k, v)] := by
  induction kvs with
  | nil => rfl
  | cons q kvs ih =>
    obtain ⟨k', v'⟩ := q
    simp only [hasKey, Bool.or_eq_false_iff, decide_eq_false_iff_not] at h
    rw [setKey, if_neg h.1, ih h.2]
    simp

theorem hasKey_setKey (kvs : List (List Char × Json)) (k k' : List Char) (v : Json) :
    hasKey (setKey kvs k v) k' = (hasKey kvs k' || k = k') := by
  induction kvs with
  | nil => simp [setKey, hasKey]
  | cons q kvs ih =>
    obtain ⟨k0, v0⟩ := q
    by_cases h : k0 = k
    · subst h
      rw [setKey, if_pos rfl]
      simp [hasKey]
      tauto
    · rw [setKey, if_neg h]
      simp [hasKey, ih, Bool.or_assoc]

theorem keysFresh_setKey {kvs : List (List Char × Json)} (h : keysFresh kvs = true)
    (k : List Char) (v : Json) : keysFresh (setKey kvs k v) = true := by
  induction kvs with
  | nil => simp [setKey, keysFresh, hasKey]
  | cons q kvs ih =>
    obtain ⟨k0, v0⟩ := q
    simp only [keysFresh, Bool.and_eq_true, Bool.not_eq_true'] at h
    by_cases hk : k0 = k
    · subst hk
      rw [setKey, if_pos rfl]
      simpa [keysFresh] using h
    · rw [setKey, if_neg hk]
      simp only [keysFresh, Bool.and_eq_true, Bool.not_eq_true']
      refine ⟨?_, ih h.2⟩
      rw [hasKey_setKey]
      simp [h.1, Ne.symm hk]

theorem wfFs_setKey {kvs : List (List Char × Json)} (h : wfFs kvs = true) {v : Json}
    (hv : wfV v = true) (k : List Char) : wfFs (setKey kvs k v) = true := by
  induction kvs with
  | nil => simp [setKey, wfFs, hv]
  | cons q kvs ih =>
    obtain ⟨k0, v0⟩ := q
    simp only [wfFs, Bool.and_eq_true] at h
    by_cases hk : k0 = k
    · subst hk
      rw [setKey, if_pos rfl]
      simp [wfFs, hv, h.2]
    · rw [setKey, if_neg hk]
      simp [wfFs, h.1, ih h.2]

theorem assembleFields_eq_self {kvs : List (List Char × Json)} (h : keysFresh kvs = true) :
    assembleFields kvs = kvs := by
  suffices haux : ∀ kvs acc, keysFresh kvs = true →
      (∀ p ∈ kvs, hasKey acc p.1 = false) →
      List.foldl (fun acc kv => setKey acc kv.1 kv.2) acc kvs = acc ++ kvs by
    simpa using haux kvs [] h (by intro p _; rfl)
  intro kvs
  induction kvs with
  | nil => intro acc _ _; simp
  | cons q kvs ih =>
    obtain ⟨k, v⟩ := q
    intro acc hfresh hacc
    simp only [keysFresh, Bool.and_eq_true, Bool.not_eq_true'] at hfresh
    rw [List.foldl_cons]
    have h1 : setKey acc k v = acc ++ [(k, v)] :=
      setKey_of_not_hasKey (hacc (k, v) (by simp)) v
    rw [h1, ih (acc ++ [(k, v)]) hfresh.2 ?_]
    · simp
    · intro p hp
      have hpk : p.1 ≠ k := ne_of_not_hasKey hfresh.1 p hp
      rw [hasKey_append, hacc p (by simp [hp])]
      simp [hasKey]
      exact fun he => hpk he.symm

theorem keysFresh_assembleFields (ps : List (List Char × Json)) :
    keysFresh (assembleFields ps) = true := by
  suffices haux : ∀ (ps acc : List (List Char × Json)), keysFresh acc = true →
      keysFresh (List.foldl (fun acc kv => setKey acc kv.1 kv.2) acc ps) = true by
    exact haux ps [] rfl
  intro ps
  induction ps with
  | nil => intro acc h; simpa using h
  | cons q ps ih =>
    intro acc h
    rw [List.foldl_cons]
    exact ih _ (keysFresh_setKey h q.1 q.2)

theorem wfFs_assembleFields {ps : List (List Char × Json)}
    (h : ∀ p ∈ ps, wfV p.2 = true) : wfFs (assembleFields ps) = true := by
  suffices haux : ∀ (ps acc : List (List Char × Json)), (∀ p ∈ ps, wfV p.2 = true) →
      wfFs acc = true →
      wfFs (List.foldl (fun acc kv => setKey acc kv.1 kv.2) acc ps) = true by
    exact haux ps [] h rfl
  intro ps
  induction ps with
  | nil => intro acc _ hacc; simpa using hacc
  | cons q ps ih =>
    intro acc hp hacc
    rw [List.foldl_cons]
    exact ih _ (fun p hmem => hp p (by simp [hmem]))
      (wfFs_setKey hacc (hp q (by simp)) q.1)

theorem skipWs_cons_not (c : Char) (l : List Char) (h : isJWs c = false) :
    skipWs (c :: l) = c :: l := by
  simp [skipWs, h]

theorem numSafe_comma (l : List Char) : numSafe (',' :: l) :=
  ⟨by decide, by decide, by decide, by decide⟩

theorem numSafe_rbracket (l : List Char) : numSafe (']' :: l) :=
  ⟨by decide, by decide, by decide, by decide⟩

theorem numSafe_rbrace (l : List Char) : numSafe ('}' :: l) :=
  ⟨by decide, by decide, by decide, by decide⟩

/-- Head shape of the serialization of a non-empty field list: always the
opening quote of the first key. -/
theorem serFields_head (p : List Char × Json) (kvs : List (List Char × Json)) :
    ∃ t, serFields (p :: kvs) = '"' :: t := by
  obtain ⟨k, v⟩ := p
  cases kvs with
  | nil => exact ⟨_, rfl⟩
  | cons q qs => exact ⟨_, rfl⟩

theorem parseSer (fuel : Nat) :
    (∀ v rest, wfV v = true → nodesV v ≤ fuel → numSafe rest →
      parseValue fuel (serJson v ++ rest) = some (v, rest)) ∧
    (∀ xs rest, wfLs xs = true → xs ≠ [] → nodesL xs ≤ fuel →
      parseElems fuel (serElems xs ++ ']' :: rest) = some (xs, rest)) ∧
    (∀ kvs rest, wfFs kvs = true → kvs ≠ [] → nodesF kvs ≤ fuel →
      parseFieldList fuel (serFields kvs ++ '}' :: rest) = some (kvs, rest)) := by
  induction fuel with
  | zero =>
    refine ⟨fun v _ _ hn _ => absurd hn (by have := nodesV_pos v; omega),
      fun xs _ _ hne hn => absurd hn (by have := nodesL_pos_of_ne_nil hne; omega),
      fun kvs _ _ hne hn => absurd hn (by have := nodesF_pos_of_ne_nil hne; omega)⟩
  | succ fuel ih =>
    obtain ⟨ihV, ihL, ihF⟩ := ih
    refine ⟨?_, ?_, ?_⟩
    · intro v rest hwf hn hsafe
      cases v with
      | null =>
        show parseValue (fuel + 1) ('n' :: 'u' :: 'l' :: 'l' :: rest) = some (.null, rest)
        rw [parseValue.eq_def]
        simp
      | bool b =>
        cases b with
        | true =>
          show parseValue (fuel + 1) ('t' :: 'r' :: 'u' :: 'e' :: rest) = some (.bool true, rest)
          rw [parseValue.eq_def]
          simp
        | false =>
          show parseValue (fuel + 1) ('f' :: 'a' :: 'l' :: 's' :: 'e' :: rest) =
            some (.bool false, rest)
          rw [parseValue.eq_def]
          simp
      | num n =>
        have hp := parseNum_intChars n rest hsafe
        show parseValue (fuel + 1) (intChars n ++ rest) = some (.num n, rest)
        by_cases hneg : n < 0
        · rw [show intChars n = '-' :: natChars n.natAbs by rw [intChars, if_pos hneg]] at hp ⊢
          rw [List.cons_append, parseValue.eq_def]
          simp only [List.cons_append] at hp
          simp [hp]
        · obtain ⟨d, t, hd10, ht⟩ := natChars_head n.natAbs
          have hic : intChars n = Char.ofNat (48 + d) :: t := by
            rw [intChars, if_neg hneg, ht]
          have htd : (Char.ofNat (48 + d)).toNat = 48 + d := toNat_ofNat_small _ (by omega)
          have hn1 : Char.ofNat (48 + d) ≠ 'n' :=
            char_ne_of_toNat (by rw [htd]; have h110 : ('n').toNat = 110 := rfl; omega)
          have hn2 : Char.ofNat (48 + d) ≠ 't' :=
            char_ne_of_toNat (by rw [htd]; have h116 : ('t').toNat = 116 := rfl; omega)
          have hn3 : Char.ofNat (48 + d) ≠ 'f' :=
            char_ne_of_toNat (by rw [htd]; have h102 : ('f').toNat = 102 := rfl; omega)
          have hn4 : Char.ofNat (48 + d) ≠ '"' :=
            char_ne_of_toNat (by rw [htd]; have h34 : ('"').toNat = 34 := rfl; omega)
          have hn5 : Char.ofNat (48 + d) ≠ '[' :=
            char_ne_of_toNat (by rw [htd]; have h91 : ('[').toNat = 91 := rfl; omega)
          have hn6 : Char.ofNat (48 + d) ≠ '{' :=
            char_ne_of_toNat (by rw [htd]; have h123 : ('{').toNat = 123 := rfl; omega)
          rw [hic] at hp ⊢
          rw [List.cons_append, parseValue.eq_def]
          simp only [List.cons_append] at hp
          simp [hn1, hn2, hn3, hn4, hn5, hn6, hp]
      | str s =>
        have hre : serJson (Json.str s) ++ rest = '"' :: (escBody s ++ '"' :: rest) := by
          simp [serJson]
        rw [hre, parseValue.eq_def]
        simp [parseStr_escBody]
      | arr xs =>
        cases xs with
        | nil =>
          show parseValue (fuel + 1) ('[' :: ']' :: rest) = some (.arr [], rest)
          rw [parseValue.eq_def]
          simp [skipWs, isJWs]
        | cons y ys =>
          obtain ⟨c0, t0, hc, hw, hne1, hne2⟩ := serElems_head y ys
          have helems : parseElems fuel (serElems (y :: ys) ++ ']' :: rest) =
              some (y :: ys, rest) := by
            refine ihL (y :: ys) rest ?_ (by simp) ?_
            · simpa [wfV] using hwf
            · simp only [nodesV] at hn
              omega
          rw [hc] at helems
          simp only [List.cons_append] at helems
          have hre : serJson (Json.arr (y :: ys)) ++ rest =
              '[' :: (serElems (y :: ys) ++ ']' :: rest) := by
            simp [serJson]
          rw [hre, parseValue.eq_def]
          simp [hc, skipWs_cons_not _ _ hw, hne1, helems]
      | obj kvs =>
        cases kvs with
        | nil =>
          show parseValue (fuel + 1) ('{' :: '}' :: rest) = some (.obj [], rest)
          rw [parseValue.eq_def]
          simp [skipWs, isJWs, assembleFields]
        | cons p ps =>
          obtain ⟨hfresh, hwfs⟩ : keysFresh (p :: ps) = true ∧ wfFs (p :: ps) = true := by
            simpa [wfV] using hwf
          obtain ⟨t1, hf⟩ := serFields_head p ps
          have hfields : parseFieldList fuel (serFields (p :: ps) ++ '}' :: rest) =
              some (p :: ps, rest) := by
            refine ihF (p :: ps) rest hwfs (by simp) ?_
            simp only [nodesV] at hn
            omega
          rw [hf] at hfields
          simp only [List.cons_append] at hfields
          have hre : serJson (Json.obj (p :: ps)) ++ rest =
              '{' :: (serFields (p :: ps) ++ '}' :: rest) := by
            simp [serJson]
          rw [hre, parseValue.eq_def]
          have hasm : assembleFields (p :: ps) = p :: ps := assembleFields_eq_self hfresh
          simp [hf, skipWs_cons_not '"' _ (by decide), hfields, hasm]
    · intro xs rest hwfl hne hnl
      cases xs with
      | nil => exact absurd rfl hne
      | cons x ys =>
        obtain ⟨hwx, hwys⟩ : wfV x = true ∧ wfLs ys = true := by
          simpa [wfLs] using hwfl
        cases ys with
        | nil =>
          have hx : parseValue fuel (serJson x ++ ']' :: rest) = some (x, ']' :: rest) := by
            refine ihV x (']' :: rest) hwx ?_ (numSafe_rbracket rest)
            simp only [nodesL] at hnl
            omega
          show parseElems (fuel + 1) (serJson x ++ ']' :: rest) = some ([x], rest)
          rw [parseElems.eq_def]
          simp [hx, skipWs_cons_not ']' _ (by decide)]
        | cons z zs =>
          obtain ⟨c0, t0, hc, hw, _, _⟩ := serElems_head z zs
          have hx : parseValue fuel
              (serJson x ++ ',' :: ' ' :: (serElems (z :: zs) ++ ']' :: rest)) =
              some (x, ',' :: ' ' :: (serElems (z :: zs) ++ ']' :: rest)) := by
            refine ihV x _ hwx ?_ (numSafe_comma _)
            simp only [nodesL] at hnl
            omega
          have hrest : parseElems fuel (serElems (z :: zs) ++ ']' :: rest) =
              some (z :: zs, rest) := by
            refine ihL (z :: zs) rest hwys (by simp) ?_
            simp only [nodesL] at hnl ⊢
            omega
          have hskip2 : skipWs (' ' :: (serElems (z :: zs) ++ ']' :: rest)) =
              serElems (z :: zs) ++ ']' :: rest := by
            rw [skipWs, if_pos (by decide), hc, List.cons_append, skipWs_cons_not _ _ hw]
          have hre : serElems (x :: z :: zs) ++ ']' :: rest =
              serJson x ++ ',' :: ' ' :: (serElems (z :: zs) ++ ']' :: rest) := by
            simp [serElems]
          rw [hre, parseElems.eq_def]
          simp [hx, skipWs_cons_not ',' _ (by decide), hskip2, hrest]
    · intro kvs rest hwfs hne hnf
      cases kvs with
      | nil => exact absurd rfl hne
      | cons p ps =>
        obtain ⟨k, v⟩ := p
        obtain ⟨hwv, hwps⟩ : wfV v = true ∧ wfFs ps = true := by
          simpa [wfFs] using hwfs
        cases ps with
        | nil =>
          have hv : parseValue fuel (serJson v ++ '}' :: rest) = some (v, '}' :: rest) := by
            refine ihV v ('}' :: rest) hwv ?_ (numSafe_rbrace rest)
            simp only [nodesF] at hnf
            omega
          have hre : serFields [(k, v)] ++ '}' :: rest =
              '"' :: (escBody k ++ '"' :: ':' :: ' ' :: (serJson v ++ '}' :: rest)) := by
            simp [serFields]
          obtain ⟨cv, tv, hcv, hwv2, _, _⟩ := serJson_head v
          have hskipv : skipWs (' ' :: (serJson v ++ '}' :: rest)) =
              serJson v ++ '}' :: rest := by
            rw [skipWs, if_pos (by decide), hcv, List.cons_append, skipWs_cons_not _ _ hwv2]
          rw [hre, parseFieldList.eq_def]
          simp [parseStr_escBody, skipWs_cons_not ':' _ (by decide),
            skipWs_cons_not '}' _ (by decide), hskipv, hv]
        | cons q qs =>
          obtain ⟨tq, hc0⟩ := serFields_head q qs
          have hv : parseValue fuel
              (serJson v ++ ',' :: ' ' :: (serFields (q :: qs) ++ '}' :: rest)) =
              some (v, ',' :: ' ' :: (serFields (q :: qs) ++ '}' :: rest)) := by
            refine ihV v _ hwv ?_ (numSafe_comma _)
            simp only [nodesF] at hnf
            omega
          have hrest : parseFieldList fuel (serFields (q :: qs) ++ '}' :: rest) =
              some (q :: qs, rest) := by
            refine ihF (q :: qs) rest hwps (by simp) ?_
            simp only [nodesF] at hnf ⊢
            omega
          have hskip2 : skipWs (' ' :: (serFields (q :: qs) ++ '}' :: rest)) =
              serFields (q :: qs) ++ '}' :: rest := by
            rw [skipWs, if_pos (by decide), hc0, List.cons_append,
              skipWs_cons_not '"' _ (by decide)]
          have hre : serFields ((k, v) :: q :: qs) ++ '}' :: rest =
              '"' :: (escBody k ++ '"' :: ':' :: ' ' ::
                (serJson v ++ ',' :: ' ' :: (serFields (q :: qs) ++ '}' :: rest))) := by
            simp [serFields]
          obtain ⟨cv, tv, hcv, hwv2, _, _⟩ := serJson_head v
          have hskipv : skipWs (' ' ::
              (serJson v ++ ',' :: ' ' :: (serFields (q :: qs) ++ '}' :: rest))) =
              serJson v ++ ',' :: ' ' :: (serFields (q :: qs) ++ '}' :: rest) := by
            rw [skipWs, if_pos (by decide), hcv, List.cons_append, skipWs_cons_not _ _ hwv2]
          rw [hre, parseFieldList.eq_def]
          simp [parseStr_escBody, skipWs_cons_not ':' _ (by decide),
            skipWs_cons_not ',' _ (by decide), hskipv, hv, hskip2, hrest]

/-- Round trip: serializing any well-formed value and strictly re-parsing
it succeeds and returns the identical value. -/
theorem jsonParse_serJson (v : Json) (hwf : wfV v = true) :
    jsonParse (serJson v) = some v := by
  obtain ⟨c, t, hc, hw, _, _⟩ := serJson_head v
  have hskip : skipWs (serJson v) = serJson v := by
    rw [hc]; exact skipWs_cons_not _ _ hw
  have hfuel : nodesV v ≤ (serJson v).length + 1 := by
    have := nodesV_le_len v; omega
  have hmain := (parseSer ((serJson v).length + 1)).1 v [] hwf hfuel trivial
  rw [List.append_nil] at hmain
  unfold jsonParse
  rw [hskip, hmain]
  simp [skipWs]

theorem parseWf (fuel : Nat) :
    (∀ l v r, parseValue fuel l = some (v, r) → wfV v = true) ∧
    (∀ l xs r, parseElems fuel l = some (xs, r) → wfLs xs = true) ∧
    (∀ l ps r, parseFieldList fuel l = some (ps, r) → ∀ p ∈ ps, wfV p.2 = true) := by
  induction fuel with
  | zero =>
    refine ⟨?_, ?_, ?_⟩ <;> intro l a r h <;> exact absurd h (by simp [parseValue, parseElems, parseFieldList])
  | succ fuel ih =>
    obtain ⟨ihV, ihL, ihF⟩ := ih
    refine ⟨?_, ?_, ?_⟩
    · intro l v r h
      rw [parseValue.eq_def] at h
      dsimp only at h
      cases l with
      | nil => exact absurd h (by simp at h)
      | cons c rest =>
        dsimp only at h
        split_ifs at h with h1 h2 h3 h4 h5 h6
        · split at h
          · simp only [Option.some.injEq, Prod.mk.injEq] at h
            rw [← h.1]
            rfl
          · simp at h
        · split at h
          · simp only [Option.some.injEq, Prod.mk.injEq] at h
            rw [← h.1]
            rfl
          · simp at h
        · split at h
          · simp only [Option.some.injEq, Prod.mk.injEq] at h
            rw [← h.1]
            rfl
          · simp at h
        · split at h
          · next s r2 heq =>
            simp only [Option.some.injEq, Prod.mk.injEq] at h
            rw [← h.1]
            rfl
          · simp at h
        · split at h
          · simp at h
          · split_ifs at h with hb
            · simp only [Option.some.injEq, Prod.mk.injEq] at h
              rw [← h.1]
              rfl
            · split at h
              · next xs r2 heq =>
                simp only [Option.some.injEq, Prod.mk.injEq] at h
                rw [← h.1]
                simpa [wfV] using ihL _ _ _ heq
              · simp at h
        · split at h
          · simp at h
          · split_ifs at h with hb
            · simp only [Option.some.injEq, Prod.mk.injEq] at h
              rw [← h.1]
              rfl
            · split at h
              · next ps r2 heq =>
                simp only [Option.some.injEq, Prod.mk.injEq] at h
                rw [← h.1]
                simp only [wfV, Bool.and_eq_true]
                exact ⟨keysFresh_assembleFields ps, wfFs_assembleFields (ihF _ _ _ heq)⟩
              · simp at h
        · split at h
          · next n r2 heq =>
            simp only [Option.some.injEq, Prod.mk.injEq] at h
            rw [← h.1]
            rfl
          · simp at h
    · intro l xs r h
      rw [parseElems.eq_def] at h
      dsimp only at h
      split at h
      · simp at h
      · next v0 r0 heq =>
        split at h
        · simp at h
        · split_ifs at h with hb hb2
          · split at h
            · next vs r3 heq2 =>
              simp only [Option.some.injEq, Prod.mk.injEq] at h
              rw [← h.1]
              simp only [wfLs, Bool.and_eq_true]
              exact ⟨ihV _ _ _ heq, ihL _ _ _ heq2⟩
            · simp at h
          · simp only [Option.some.injEq, Prod.mk.injEq] at h
            rw [← h.1]
            simp only [wfLs, Bool.and_eq_true]
            exact ⟨ihV _ _ _ heq, trivial⟩
    · intro l ps r h
      rw [parseFieldList.eq_def] at h
      dsimp only at h
      split at h
      · split_ifs at h with h1
        · split at h
          · next k r0 heq0 =>
            split at h
            · simp at h
            · split_ifs at h with hb
              · split at h
                · next v0 r3 heq =>
                  split at h
                  · simp at h
                  · split_ifs at h with hb2 hb3
                    · split at h
                      · next ps2 r5 heq2 =>
                        simp only [Option.some.injEq, Prod.mk.injEq] at h
                        rw [← h.1]
                        intro p hp
                        rcases List.mem_cons.mp hp with rfl | hp2
                        · exact ihV _ _ _ heq
                        · exact ihF _ _ _ heq2 p hp2
                      · simp at h
                    · simp only [Option.some.injEq, Prod.mk.injEq] at h
                      rw [← h.1]
                      intro p hp
                      rcases List.mem_cons.mp hp with rfl | hp2
                      · exact ihV _ _ _ heq
                      · simp at hp2
                · simp at h
          · simp at h
      · simp at h

/-- Everything `jsonParse` returns is well formed (its objects are built
by dict insertion, so keys are pairwise distinct). -/
theorem jsonParse_wf (l : List Char) (v : Json) (h : jsonParse l = some v) :
    wfV v = true := by
  unfold jsonParse at h
  split at h
  · next v0 r0 heq =>
    split_ifs at h with hr
    · simp only [Option.some.injEq] at h
      rw [← h]
      exact (parseWf (l.length + 1)).1 _ _ _ heq
  · simp at h

/- ===================================================================
Text-repair layer: `BaseAgent._extract_json_from_markdown`,
`BaseAgent._clean_json_text` and `BaseAgent.safe_json_loads`
(src/device_agents.py, lines 37-178).  Each `re.sub` is embedded as a
left-to-right scanner with the exact leftmost, non-overlapping semantics
of the Python regexes, documented per pattern.  Python's `\s`/`str.strip`
whitespace is modelled by its ASCII portion.
=================================================================== -/

/-- ASCII whitespace as matched by Python `\s` and stripped by `str.strip`. -/
def isPyWs (c : Char) : Bool :=
  c = ' ' || c = '\t' || c = '\n' || c = '\r' || c = Char.ofNat 11 || c = Char.ofNat 12

/-- `str.strip()`. -/
def pyStrip (l : List Char) : List Char :=
  ((l.dropWhile isPyWs).reverse.dropWhile isPyWs).reverse

/-- `str.rstrip()`. -/
def pyRstrip (l : List Char) : List Char :=
  (l.reverse.dropWhile isPyWs).reverse

/-- ASCII decimal digit (`\d`). -/
def isDigitCh (c : Char) : Bool :=
  48 ≤ c.toNat && c.toNat ≤ 57

/-- `[\w\d\s]` restricted to ASCII (`\w` = letters, digits, underscore). -/
def isWordWs (c : Char) : Bool :=
  (65 ≤ c.toNat && c.toNat ≤ 90) || (97 ≤ c.toNat && c.toNat ≤ 122) ||
    isDigitCh c || c = '_' || isPyWs c

/-- One pass of `re.sub` (or `str.replace`): scan left to right, at each
position try the pattern matcher `step`; on a match emit its replacement
and resume after the consumed text, otherwise emit one character and move
one position right.  Every `step` used below consumes at least one
character, so fuel = length of the text always suffices. -/
def subScan (step : List Char → Option (List Char × List Char)) :
    Nat → List Char → List Char
  | 0, l => l
  | _ + 1, [] => []
  | fuel + 1, c :: cs =>
    match step (c :: cs) with
    | some (repl, rest) => repl ++ subScan step fuel rest
    | none => c :: subScan step fuel cs

/-- Global leftmost non-overlapping substitution. -/
def reSub (step : List Char → Option (List Char × List Char)) (l : List Char) :
    List Char :=
  subScan step l.length l

/-- Fixed-string matcher for `str.replace(pat, repl)`. -/
def replaceStep (pat repl : List Char) (l : List Char) :
    Option (List Char × List Char) :=
  if l.take pat.length = pat then some (repl, l.drop pat.length) else none

/-- `str.replace(pat, repl)`. -/
def pyReplace (pat repl l : List Char) : List Char :=
  reSub (replaceStep pat repl) l

/-- The apostrophe character. -/
def apoC : Char := Char.ofNat 39

/-- The fixed string that line 54 of device_agents.py actually replaces.
The source line reads, byte for byte,
`text = text.replace(""", '"').replace(""", '"').replace("'", "'")`:
the two `"""` tokens open and close ONE triple-quoted Python string, so
the statement tokenizes as a single `str.replace` whose pattern is the
15-character text between them (comma, space, quote-quote-quote wrapped
in apostrophes, close paren, `.replace(`), followed by the no-op
`.replace("'", "'")`.  The spec's intended smart-quote normalization is
not what the stored source executes. -/
def quoteFixPat : List Char :=
  [',', ' ', apoC, '"', apoC, ')', '.', 'r', 'e', 'p', 'l', 'a', 'c', 'e', '(']

/-- `re.sub(r",\s*([\]}])", r"\1", text)`: a comma, optional whitespace,
then a closing bracket or brace collapse to just the closer.  `\s*` is
greedy but the following literal class makes the match deterministic. -/
def commaFixStep : List Char → Option (List Char × List Char)
  | ',' :: cs =>
    match cs.dropWhile isPyWs with
    | ']' :: r => some ([']'], r)
    | '}' :: r => some (['}'], r)
    | _ => none
  | _ => none

/-- `re.sub(r'(\d)"(?=[^:,\}\]])', r'\1\\"', text)`: escape a quote that
follows a digit unless the lookahead sees a structural delimiter.  The
lookahead character is not consumed. -/
def inchFixStep : List Char → Option (List Char × List Char)
  | d :: '"' :: c2 :: rest =>
    if isDigitCh d && !(c2 = ':' || c2 = ',' || c2 = '}' || c2 = ']') then
      some ([d, '\\', '"'], c2 :: rest)
    else none
  | _ => none

/-- Split a list at the last character satisfying `p`: `(before, hit, after)`. -/
def splitAtLast (p : Char → Bool) (l : List Char) :
    Option (List Char × Char × List Char) :=
  let rev := l.reverse
  let afterRev := rev.takeWhile (fun c => !(p c))
  match rev.dropWhile (fun c => !(p c)) with
  | c :: beforeRev => some (beforeRev.reverse, c, afterRev.reverse)
  | [] => none

/-- Greedy `\s*` followed by a literal newline (the tail of FIX 1):
consumes the whitespace run up to and including its last `\n`. -/
def wsRunNl (l : List Char) : Option (List Char × List Char) :=
  let run := l.takeWhile isPyWs
  let rest := l.drop run.length
  match splitAtLast (fun c => c = '\n') run with
  | some (before, _, after) => some (before ++ ['\n'], after ++ rest)
  | none => none

/-- Match `"url"\s*:\s*"` (group 1 of the two URL repairs). -/
def urlKeyHead : List Char → Option (List Char × List Char)
  | '"' :: 'u' :: 'r' :: 'l' :: '"' :: r =>
    let w1 := r.takeWhile isPyWs
    match r.drop w1.length with
    | ':' :: r2 =>
      let w2 := r2.takeWhile isPyWs
      match r2.drop w2.length with
      | '"' :: r4 =>
        some ('"' :: 'u' :: 'r' :: 'l' :: '"' :: (w1 ++ ':' :: (w2 ++ ['"'])), r4)
      | _ => none
    | _ => none
  | _ => none

/-- Match `https?://` (greedy optional `s`). -/
def schemeHead : List Char → Option (List Char × List Char)
  | 'h' :: 't' :: 't' :: 'p' :: rest =>
    match rest with
    | 's' :: ':' :: '/' :: '/' :: r => some (strL "https://", r)
    | ':' :: '/' :: '/' :: r => some (strL "http://", r)
    | _ => none
  | _ => none

/-- Lazy `[^"\n]+?(/)` followed by `\s*\n` (FIX 1): the shortest non-empty
run of characters other than `"` and newline such that the next character
is `/` and a whitespace run containing a newline follows. -/
def lazySlashScan : Nat → List Char → List Char → Option (List Char × List Char)
  | 0, _, _ => none
  | _ + 1, _, [] => none
  | fuel + 1, acc, c :: rest =>
    if c = '/' ∧ acc ≠ [] then
      match wsRunNl rest with
      | some (_, tail) => some (acc.reverse, tail)
      | none =>
        if c = '"' ∨ c = '\n' then none else lazySlashScan fuel (c :: acc) rest
    else if c = '"' ∨ c = '\n' then none
    else lazySlashScan fuel (c :: acc) rest

/-- FIX 1 of `_clean_json_text`:
`re.sub(r'("url"\s*:\s*")(https?://[^"\n]+?)(/)\s*\n', r'\1\2\3"\n', text)`
closes a URL string whose final `/` is followed by a line break. -/
def urlFix1Step (l : List Char) : Option (List Char × List Char) :=
  match urlKeyHead l with
  | none => none
  | some (g1, r1) =>
    match schemeHead r1 with
    | none => none
    | some (sch, r2) =>
      match lazySlashScan (r2.length + 1) [] r2 with
      | none => none
      | some (body, tail) => some (g1 ++ sch ++ body ++ ['/', '"', '\n'], tail)

/-- Tail `\s*[\r\n]+\s*[},\]]` of FIX 2: a whitespace run that contains a
CR or LF, then a closer. -/
def fix2Tail (l : List Char) : Option (List Char × List Char) :=
  let run := l.takeWhile isPyWs
  let rest := l.drop run.length
  if run.any (fun c => c = '\r' || c = '\n') then
    match rest with
    | '}' :: r => some (run ++ ['}'], r)
    | ',' :: r => some (run ++ [','], r)
    | ']' :: r => some (run ++ [']'], r)
    | _ => none
  else none

/-- Greedy body backtracking for the URL repairs: the longest non-empty
prefix of the maximal `[^"\n]` run whose remainder matches `tailMatch`. -/
def greedyBody (tailMatch : List Char → Option (List Char × List Char)) :
    Nat → List Char → List Char → Option (List Char × List Char × List Char)
  | 0, _, _ => none
  | fuel + 1, bodyRev, rest =>
    match bodyRev with
    | [] => none
    | b :: bodyRev2 =>
      match tailMatch rest with
      | some (g2, tail) => some (bodyRev.reverse, g2, tail)
      | none => greedyBody tailMatch fuel bodyRev2 (b :: rest)

/-- FIX 2 of `_clean_json_text`:
`re.sub(r'("url"\s*:\s*"https?://[^"\n]+)(\s*[\r\n]+\s*[},\]])', r'\1"\2', text)`. -/
def urlFix2Step (l : List Char) : Option (List Char × List Char) :=
  match urlKeyHead l with
  | none => none
  | some (g1, r1) =>
    match schemeHead r1 with
    | none => none
    | some (sch, r2) =>
      let run := r2.takeWhile (fun c => !(c = '"' || c = '\n'))
      let rest := r2.drop run.length
      match greedyBody fix2Tail (run.length + 1) run.reverse rest with
      | none => none
      | some (body, g2, tail) => some (g1 ++ sch ++ body ++ '"' :: g2, tail)

/-- Tail `\s*[,\n\r]` of FIX 3: greedy whitespace then one comma, LF or CR;
with backtracking this is the whole run when a comma follows it, else the
run up to its last LF/CR. -/
def fix3Tail (l : List Char) : Option (List Char × List Char) :=
  let run := l.takeWhile isPyWs
  let rest := l.drop run.length
  match rest with
  | ',' :: r => some (run ++ [','], r)
  | _ =>
    match splitAtLast (fun c => c = '\n' || c = '\r') run with
    | some (before, hit, after) => some (before ++ [hit], after ++ rest)
    | none => none

/-- FIX 3 of `_clean_json_text`:
`re.sub(r'([\w\d\s]+)\\"(\s*[,\n\r])', r'\1"\2', text)` drops a stray
backslash before a closing quote after word characters. -/
def escQuoteFix3Step (l : List Char) : Option (List Char × List Char) :=
  let run := l.takeWhile isWordWs
  if run.isEmpty then none
  else
    match l.drop run.length with
    | '\\' :: '"' :: rest =>
      match fix3Tail rest with
      | some (g2, tail) => some (run ++ '"' :: g2, tail)
      | none => none
    | _ => none

/-- FIX 4 of `_clean_json_text`:
`re.sub(r'\\"(\s*$)', r'"\1', text, flags=re.MULTILINE)`: a backslash-quote
whose trailing whitespace reaches an end of line (`$` is zero width). -/
def eolQuoteFix4Step (l : List Char) : Option (List Char × List Char) :=
  match l with
  | '\\' :: '"' :: rest =>
    let run := rest.takeWhile isPyWs
    let rest2 := rest.drop run.length
    if rest2.isEmpty then some ('"' :: run, [])
    else
      match splitAtLast (fun c => c = '\n') run with
      | some (before, _, after) =>
        some ('"' :: before, '\n' :: (after ++ rest2))
      | none => none
  | _ => none

/-- `pat in l` for strings (substring containment). -/
def hasSub (pat : List Char) : List Char → Bool
  | [] => pat.isEmpty
  | c :: cs => if (c :: cs).take pat.length = pat then true else hasSub pat cs

/-- FIX 5 of `_clean_json_text`, one escape letter at a time:
`re.sub(r'(?<=": ")([^"]*?)\\n([^"]*?)(?=")', lambda m: m.group(0).replace('\\n', ' '), text)`
(and the same with `\t`): inside a string value that follows `": "`, every
literal backslash-`esc` sequence up to the next quote becomes a space,
provided at least one occurs and a closing quote exists. -/
def strCtrlScan (esc : Char) : Nat → List Char → List Char
  | 0, l => l
  | _ + 1, [] => []
  | fuel + 1, '"' :: ':' :: ' ' :: '"' :: rest =>
    let r := rest.takeWhile (fun c => !(c = '"'))
    let after := rest.drop r.length
    if !after.isEmpty && hasSub ['\\', esc] r then
      '"' :: ':' :: ' ' :: '"' :: (pyReplace ['\\', esc] [' '] r ++ strCtrlScan esc fuel after)
    else
      '"' :: strCtrlScan esc fuel (':' :: ' ' :: '"' :: rest)
  | fuel + 1, c :: cs => c :: strCtrlScan esc fuel cs

/-- `BaseAgent._clean_json_text` (device_agents.py lines 49-88), stage by
stage in source order. -/
def cleanJsonText (text : List Char) : List Char :=
  let t1 := pyReplace quoteFixPat ['"'] text
  let t1b := pyReplace [apoC] [apoC] t1
  let t2 := reSub commaFixStep t1b
  let t3 := reSub inchFixStep t2
  let t4 := reSub urlFix1Step t3
  let t5 := reSub urlFix2Step t4
  let t6 := reSub escQuoteFix3Step t5
  let t7 := reSub eolQuoteFix4Step t6
  let t8 := strCtrlScan 'n' t7.length t7
  let t9 := strCtrlScan 't' t8.length t8
  pyStrip t9

/-- The backtick character. -/
def backtickC : Char := Char.ofNat 96

/-- Split a text at its first run of three backticks. -/
def splitTriple : List Char → Option (List Char × List Char)
  | b1 :: b2 :: b3 :: rest =>
    if b1 = backtickC ∧ b2 = backtickC ∧ b3 = backtickC then some ([], rest)
    else
      match splitTriple (b2 :: b3 :: rest) with
      | some (pre, post) => some (b1 :: pre, post)
      | none => none
  | _ => none

/-- Content of the first fenced code block:
`re.search(r"```(?:json)?\s*([\s\S]*?)```", text)` keeps the text between
the first two fences, minus a literal `json` tag and leading whitespace
(the trailing `.strip()` of the caller is applied here as in the source). -/
def fenceContent (text : List Char) : Option (List Char) :=
  match splitTriple text with
  | none => none
  | some (_, after) =>
    match splitTriple after with
    | none => none
    | some (seg, _) =>
      let seg2 := if seg.take 4 = strL "json" then seg.drop 4 else seg
      some (pyStrip seg2)

/-- Longest prefix of `l` that ends with the character `c`. -/
def takeToLast (c : Char) : List Char → Option (List Char)
  | [] => none
  | x :: xs =>
    match takeToLast c xs with
    | some t => some (x :: t)
    | none => if x = c then some [x] else none

/-- `re.search(r"\{[\s\S]*\}", text)`: greedy span from the first `{`
that has a later `}` up to the LAST `}` of the text (leftmost start,
greedy end - no bracket balancing). -/
def braceSpan : List Char → Option (List Char)
  | [] => none
  | c :: cs =>
    if c = '{' then
      match takeToLast '}' cs with
      | some t => some ('{' :: t)
      | none => braceSpan cs
    else braceSpan cs

/-- `BaseAgent._extract_json_from_markdown` (device_agents.py lines 37-47):
fenced block first (used only when its stripped content starts with `{`
and ends with `}`), else the greedy `\{[\s\S]*\}` span, else the stripped
text. -/
def extractJsonFromMarkdown (text : List Char) : List Char :=
  match fenceContent text with
  | some cand =>
    if cand.head? = some '{' ∧ cand.getLast? = some '}' then cand
    else
      match braceSpan text with
      | some s => s
      | none => pyStrip text
  | none =>
    match braceSpan text with
    | some s => s
    | none => pyStrip text

/-- `re.search(r'(\{.*\}|\[.*\])', text, re.DOTALL)` (step 1 of
`safe_json_loads`): leftmost `{` or `[` with a matching later closer,
greedy to the last such closer in the whole text. -/
def dotAllSpan : List Char → Option (List Char)
  | [] => none
  | c :: cs =>
    if c = '{' then
      match takeToLast '}' cs with
      | some t => some ('{' :: t)
      | none => dotAllSpan cs
    else if c = '[' then
      match takeToLast ']' cs with
      | some t => some ('[' :: t)
      | none => dotAllSpan cs
    else dotAllSpan cs

/-- Tail `\s*[\r\n]` of the third auto-fix of `safe_json_loads`. -/
def urlNlTail (l : List Char) : Option (List Char × List Char) :=
  let run := l.takeWhile isPyWs
  let rest := l.drop run.length
  match splitAtLast (fun c => c = '\n' || c = '\r') run with
  | some (before, hit, after) => some (before ++ [hit], after ++ rest)
  | none => none

/-- Auto-fix 3 of `safe_json_loads`:
`re.sub(r'("url"\s*:\s*"https?://[^"\n]+)(\s*[\r\n])', r'\1"\2', fixed)`. -/
def urlNlFixStep (l : List Char) : Option (List Char × List Char) :=
  match urlKeyHead l with
  | none => none
  | some (g1, r1) =>
    match schemeHead r1 with
    | none => none
    | some (sch, r2) =>
      let run := r2.takeWhile (fun c => !(c = '"' || c = '\n'))
      let rest := r2.drop run.length
      match greedyBody urlNlTail (run.length + 1) run.reverse rest with
      | none => none
      | some (body, g2, tail) => some (g1 ++ sch ++ body ++ '"' :: g2, tail)

/-- Auto-fix 4 of `safe_json_loads`: `re.sub(r'\\[nt]', ' ', line)` per
line; the pattern never spans a real newline, so the global scan is
equivalent to the per-line loop of the source. -/
def escNtFixStep : List Char → Option (List Char × List Char)
  | '\\' :: c :: rest =>
    if c = 'n' ∨ c = 't' then some ([' '], rest) else none
  | _ => none

/-- Count of quotes not preceded by a backslash (`(?<!\\)"`). -/
def cuq : Option Char → List Char → Nat
  | _, [] => 0
  | prev, c :: rest =>
    (if c = '"' ∧ prev ≠ some '\\' then 1 else 0) + cuq (some c) rest

/-- `text.split('\n')`. -/
def splitOnNl : List Char → List (List Char)
  | [] => [[]]
  | c :: rest =>
    if c = '\n' then [] :: splitOnNl rest
    else
      match splitOnNl rest with
      | [] => [[c]]
      | l :: ls => (c :: l) :: ls

/-- `'\n'.join(lines)`. -/
def joinNl : List (List Char) → List Char
  | [] => []
  | [l] => l
  | l :: l2 :: ls => l ++ '\n' :: joinNl (l2 :: ls)

/-- Auto-fix 5 of `safe_json_loads`, applied to one line: when the line is
non-blank, has an odd number of unescaped quotes, does not end (after
rstrip) with a comma, and mentions both `"url"` and `https://`, append a
closing quote to its rstripped form. -/
def quoteBalanceLine (line : List Char) : List Char :=
  if (pyStrip line).isEmpty then line
  else if cuq none line % 2 = 1 ∧ (pyRstrip line).getLast? ≠ some ',' then
    if hasSub (strL "\"url\"") line ∧ hasSub (strL "https://") line then
      pyRstrip line ++ ['"']
    else line
  else line

/-- `BaseAgent.safe_json_loads` (device_agents.py lines 90-178): span
extraction, strict parse, then on failure the five auto-fixes and a second
strict parse; every failure path returns the sentinel (`None`), and the
printed diagnostics of the source have no effect on the result. -/
def safeJsonLoads (text : List Char) : Option Json :=
  if text.isEmpty || (pyStrip text).isEmpty then none
  else
    let t := match dotAllSpan text with
      | some s => s
      | none => text
    match jsonParse t with
    | some v => some v
    | none =>
      let f1 := reSub commaFixStep t
      let f2 := reSub inchFixStep f1
      let f3 := reSub urlNlFixStep f2
      let f4 := reSub escNtFixStep f3
      let f5 := joinNl ((splitOnNl f4).map quoteBalanceLine)
      jsonParse f5

/-- The Recovery Parser pipeline as invoked by every agent:
`safe_json_loads(_clean_json_text(_extract_json_from_markdown(text)))`. -/
def recoverText (text : List Char) : Option Json :=
  safeJsonLoads (cleanJsonText (extractJsonFromMarkdown text))

/- ===================================================================
`BaseAgent._validate_response` (device_agents.py lines 182-262).
=================================================================== -/

mutual

/-- Python `str()`/`repr()` of a parsed JSON value, used only for the
truncated `partial_data` preview (string escaping inside `repr` is not
modelled; only the length bound of the preview matters). -/
def pyReprV : Json → List Char
  | .null => strL "None"
  | .bool true => strL "True"
  | .bool false => strL "False"
  | .num n => intChars n
  | .str s => apoC :: s ++ [apoC]
  | .arr xs => '[' :: pyReprL xs ++ [']']
  | .obj kvs => '{' :: pyReprF kvs ++ ['}']

/-- `repr` of list elements. -/
def pyReprL : List Json → List Char
  | [] => []
  | [x] => pyReprV x
  | x :: y :: xs => pyReprV x ++ ',' :: ' ' :: pyReprL (y :: xs)

/-- `repr` of dict entries. -/
def pyReprF : List (List Char × Json) → List Char
  | [] => []
  | [(k, v)] => apoC :: k ++ apoC :: ':' :: ' ' :: pyReprV v
  | (k, v) :: p :: xs =>
      (apoC :: k ++ apoC :: ':' :: ' ' :: pyReprV v) ++ ',' :: ' ' :: pyReprF (p :: xs)

end

/-- The recommendation filter of `_validate_response`: an entry is kept
iff it is a truthy dict carrying a truthy value under at least one of
`name`, `title`, `build_name`, `components`. -/
def validRec : Json → Bool
  | .obj kvs =>
    jsonTruthy (.obj kvs) &&
      (truthyOpt (getKey kvs (strL "name")) || truthyOpt (getKey kvs (strL "title")) ||
        truthyOpt (getKey kvs (strL "build_name")) ||
        truthyOpt (getKey kvs (strL "components")))
  | _ => false

/-- The response built for a `None` input (lines 184-193); `ts` is the
`datetime.utcnow().isoformat() + "Z"` stamp, passed explicitly. -/
def failedNullResponse (ts : List Char) : Json :=
  .obj [(strL "error", .str (strL "Agent produced null response")),
        (strL "status", .str (strL "failed")),
        (strL "recommendations", .arr []),
        (strL "metadata",
          .obj [(strL "generated_at", .str ts), (strL "status", .str (strL "failed"))])]

/-- The minimal failure object of the serialize/re-parse `except` branch
(lines 248-257), with the offending value's string preview truncated to
500 characters. -/
def validationFailure (ts : List Char) (resp : Json) : Json :=
  .obj [(strL "error", .str (strL "Response validation failed")),
        (strL "status", .str (strL "failed")),
        (strL "partial_data", .str ((pyReprV resp).take 500)),
        (strL "metadata",
          .obj [(strL "generated_at", .str ts), (strL "status", .str (strL "failed"))])]

/-- Lines 195-203: default the `recommendations` and `metadata` keys. -/
def ensuredKvs (kvs0 : List (List Char × Json)) (ts : List Char) :
    List (List Char × Json) :=
  let kvs1 := if hasKey kvs0 (strL "recommendations") then kvs0
    else setKey kvs0 (strL "recommendations") (.arr [])
  if hasKey kvs1 (strL "metadata") then kvs1
  else
    setKey kvs1 (strL "metadata")
      (.obj [(strL "generated_at", .str ts), (strL "status", .str (strL "partial"))])

/-- Lines 206-210, taken when `response["recommendations"]` is falsy:
set `error` and `status`, then `response["metadata"]["status"] = "failed"`
(a `TypeError` escapes if `metadata` holds a non-dict; its absence is
impossible after `ensuredKvs`). -/
def emptyRecsBranch (kvs : List (List Char × Json)) :
    Except (List Char) (List (List Char × Json)) :=
  let kvs4 := setKey (setKey kvs (strL "error")
    (.str (strL "No recommendations were generated")))
    (strL "status") (.str (strL "failed"))
  match getKey kvs4 (strL "metadata") with
  | some (.obj m) =>
    .ok (setKey kvs4 (strL "metadata") (.obj (setKey m (strL "status")
      (.str (strL "failed")))))
  | some _ => .error (strL "TypeError")
  | none => .error (strL "KeyError")

/-- Lines 213-239: when `recommendations` is a list, keep only the valid
entries; if none survive, set `error` and `status` (in source order). -/
def filterBranch (kvs : List (List Char × Json)) : List (List Char × Json) :=
  match (getKey kvs (strL "recommendations")).getD .null with
  | .arr recs =>
    let valid := recs.filter validRec
    let kvsB := setKey kvs (strL "recommendations") (.arr valid)
    if valid.isEmpty then
      setKey (setKey kvsB (strL "error")
        (.str (strL "No valid recommendations found in response")))
        (strL "status") (.str (strL "failed"))
    else kvsB
  | _ => kvs

/-- `BaseAgent._validate_response`.  A non-dict, non-`None` argument makes
the source raise (`response["recommendations"] = []` on a list/str is a
`TypeError`, `in` on an int raises first); that exception is modelled as
`Except.error` and is caught only by the caller's blanket handler. -/
def validateResponse (resp : Option Json) (ts : List Char) : Except (List Char) Json :=
  match resp with
  | none => .ok (failedNullResponse ts)
  | some (.obj kvs0) =>
    let kvs2 := ensuredKvs kvs0 ts
    match (if jsonTruthy ((getKey kvs2 (strL "recommendations")).getD .null)
        then Except.ok kvs2 else emptyRecsBranch kvs2) with
    | .error e => .error e
    | .ok kvsA =>
      let kvsC := filterBranch kvsA
      match jsonParse (serJson (.obj kvsC)) with
      | some r => .ok r
      | none => .ok (validationFailure ts (.obj kvsC))
  | some _ => .error (strL "TypeError")

/- ===================================================================
`RateLimiter` (src/llm_provider.py lines 19-97).  Timestamps are integer
seconds (`datetime` arithmetic restricted to whole seconds; `int(...)`
truncation is then exact).  One caller's ledger entry is a list of
timestamps; the per-user dict is handled at the `generate` level.
=================================================================== -/

structure RLCfg where
  maxRequests : Nat
  windowMinutes : Nat

/-- Purge of line 56: keep timestamps strictly newer than `now - window`. -/
def purgeLedger (cfg : RLCfg) (now : Int) (ts : List Int) : List Int :=
  ts.filter (fun t => decide (now - 60 * (cfg.windowMinutes : Int) < t))

/-- Outcome of one `check_rate_limit` call. -/
inductive CheckOutcome where
  | allowed : CheckOutcome
  | limited (retryAfter : Int) : CheckOutcome
deriving DecidableEq, Repr

/-- `min(list)`; Python raises `ValueError` on an empty list, which is
reachable only with `max_requests = 0` - the default value `0` here is
never used under the hypotheses of the theorems below. -/
def listMinD (l : List Int) (d : Int) : Int :=
  match l with
  | [] => d
  | x :: xs => xs.foldl min x

/-- `RateLimiter.check_rate_limit` for one caller: purge, then either
raise `RateLimitExceeded` with `retry_after = max(int(oldest + window - now), 1)`
(leaving the purged ledger), or append `now` and allow. -/
def checkRateLimit (cfg : RLCfg) (now : Int) (ts : List Int) :
    CheckOutcome × List Int :=
  let s := purgeLedger cfg now ts
  if cfg.maxRequests ≤ s.length then
    (.limited (max (listMinD s 0 + 60 * (cfg.windowMinutes : Int) - now) 1), s)
  else
    (.allowed, s ++ [now])

/-- A sequence of checks for the same caller at the given times. -/
def runChecks (cfg : RLCfg) : List Int → List Int → List CheckOutcome × List Int
  | [], ts => ([], ts)
  | now :: times, ts =>
    let (o, ts') := checkRateLimit cfg now ts
    let (os, ts'') := runChecks cfg times ts'
    (o :: os, ts'')

/- ===================================================================
`LLMProvider.generate` (llm_provider.py lines 142-188) and
`PhoneAgent.handle_request` (device_agents.py lines 280-359).
=================================================================== -/

/-- What one `generate` call produces: a reply string, or the
`RateLimitExceeded` exception with its retry-after payload. -/
inductive GenResult where
  | reply (s : List Char) : GenResult
  | rateLimited (retryAfter : Int) : GenResult
deriving DecidableEq, Repr

/-- The try/except body of `generate`: main model first (an empty or
falsy reply counts as failure), then the backup, else `""`.  Model
invocations that raise are `Except.error`; every such error is absorbed
inside `generate` itself. -/
def genBody (mainOut backupOut : Except (List Char) (List Char)) : List Char :=
  match mainOut with
  | .ok c =>
    if c.isEmpty then
      match backupOut with
      | .ok c2 => if c2.isEmpty then [] else c2
      | .error _ => []
    else c
  | .error _ =>
    match backupOut with
    | .ok c2 => if c2.isEmpty then [] else c2
    | .error _ => []

/-- `LLMProvider.generate`: the rate limiter runs only when a caller id is
supplied (`if user_id:`), and it runs before the try block, so
`RateLimitExceeded` is the only exception that can leave `generate`. -/
def generate (cfg : RLCfg) (now : Int) (ledger : List Int) (hasUser : Bool)
    (mainOut backupOut : Except (List Char) (List Char)) : GenResult × List Int :=
  if hasUser then
    match checkRateLimit cfg now ledger with
    | (.limited r, ts') => (.rateLimited r, ts')
    | (.allowed, ts') => (.reply (genBody mainOut backupOut), ts')
  else (.reply (genBody mainOut backupOut), ledger)

/-- Behaviour of the vector store collaborator for one request
(`VectorDBTool.query_devices`): a device list, or a raised exception. -/
structure VdbEnv where
  result : Except (List Char) (List Json)

/-- Behaviour of the live-search collaborator
(`SerperSearchTool.get_organic_results` / `format_results`). -/
structure SerperEnv where
  organic : Except (List Char) Json
  formatted : Except (List Char) (List Char)

/-- Environment of one `PhoneAgent.handle_request` call.  The three
generation calls go through `BaseAgent.contact`, which invokes
`generate(prompt)` WITHOUT a caller id, so each reply is a plain string
(see `generate`: with `hasUser = false` no exception is possible); the
reply of each call site is supplied directly, absorbing the prompt
formatting, which is pure string interpolation and cannot raise.
`vectorDb`/`serper` are `none` when the tool is not registered
(`self.tools.get(...)` returning `None`). -/
structure PhoneEnv where
  extractionReply : List Char
  searchReply : List Char
  finalReply : List Char
  vectorDb : Option VdbEnv
  serper : Option SerperEnv

/-- `d.get(k, default)` on the user request dict. -/
def pyDictGet (kvs : List (List Char × Json)) (k : String) (d : Json) : Json :=
  (getKey kvs (strL k)).getD d

/-- The `location` value after step 1 (lines 285-300): from the parsed
extraction reply when it is a dict, else the `user_request` fallback of
the `except` branch (which computes the same value the `dict.get` default
would). -/
def phoneLocation (env : PhoneEnv) (req : List (List Char × Json)) : Json :=
  match recoverText env.extractionReply with
  | some (.obj p) => (getKey p (strL "location")).getD (pyDictGet req "location" (.str []))
  | _ => pyDictGet req "location" (.str [])

/-- Steps 2-3 of `handle_request` (lines 302-338): query the vector store
when the tool is registered and `location` is truthy; keep its result only
with at least 3 hits; otherwise fall back to the serper tool when that is
registered.  Returns `(formatted_results, source)`; a raised collaborator
exception propagates. -/
def phoneRetrieve (env : PhoneEnv) (req : List (List Char × Json)) :
    Except (List Char) (Option (List Char) × Option (List Char)) :=
  let location := phoneLocation env req
  let step2 : Except (List Char) (Option (List Char) × Option (List Char)) :=
    match env.vectorDb, jsonTruthy location with
    | some vdb, true =>
      match vdb.result with
      | .error e => .error e
      | .ok devs =>
        if !devs.isEmpty && decide (3 ≤ devs.length) then
          .ok (some (serJson (.arr devs)), some (strL "Vector Database"))
        else .ok (none, none)
    | _, _ => .ok (none, none)
  match step2 with
  | .error e => .error e
  | .ok (some f, src) => .ok (some f, src)
  | .ok (none, _) =>
    match env.serper with
    | some sp =>
      match sp.organic with
      | .error e => .error e
      | .ok _ =>
        match sp.formatted with
        | .error e => .error e
        | .ok fmt => .ok (some fmt, some (strL "Web Search"))
    | none => .ok (none, none)

/-- The failure object of the blanket `except` clause (lines 358-359). -/
def errDict (msg : List Char) (req : List (List Char × Json)) : Json :=
  .obj [(strL "error", .str msg), (strL "status", .str (strL "failed")),
        (strL "user_request", .obj req)]

/-- The try body of `handle_request`: retrieval, final generation call,
recovery parse, validation.  `ts` is the metadata timestamp. -/
def phoneHandleCore (env : PhoneEnv) (req : List (List Char × Json)) (ts : List Char) :
    Except (List Char) (Json × Option (List Char)) :=
  match phoneRetrieve env req with
  | .error e => .error e
  | .ok (_, src) =>
    match validateResponse (recoverText env.finalReply) ts with
    | .ok r => .ok (r, src)
    | .error e => .error e

/-- `PhoneAgent.handle_request`: the try body with every exception
absorbed into the failure dict.  The second component exposes the
`source` provenance variable of the retrieval step (`None` when the
request died before or during retrieval). -/
def phoneHandleRequest (env : PhoneEnv) (req : List (List Char × Json)) (ts : List Char) :
    Json × Option (List Char) :=
  match phoneHandleCore env req ts with
  | .ok (r, src) => (r, src)
  | .error e => (errDict e req, none)

/- ===================================================================
Interleaving model for concurrent `check_rate_limit` calls.  The method
holds no lock; under CPython threads a context switch may occur between
its statements.  One call is split into the three atomic regions of the
source: the purge-and-store (lines 52-59), the count-and-decide (lines
62-72) and the append (line 75).  Any behaviour of this coarse model is
realizable by a real interleaving, since each region is a contiguous
statement block. -/

/-- Progress of one in-flight `check_rate_limit` call. -/
inductive TPhase where
  | beforePurge : TPhase
  | beforeDecide : TPhase
  | beforeAppend : TPhase
  | doneAllowed : TPhase
  | doneRejected : TPhase
deriving DecidableEq, Repr

/-- One atomic region of one thread, acting on the shared ledger. -/
def stepThread (cfg : RLCfg) (now : Int) : TPhase → List Int → TPhase × List Int
  | .beforePurge, ts => (.beforeDecide, purgeLedger cfg now ts)
  | .beforeDecide, ts =>
    if cfg.maxRequests ≤ ts.length then (.doneRejected, ts) else (.beforeAppend, ts)
  | .beforeAppend, ts => (.doneAllowed, ts ++ [now])
  | ph, ts => (ph, ts)

/-- Run a schedule (a list of thread indices) over thread phases and the
shared ledger. -/
def runSched (cfg : RLCfg) (now : Int) :
    List Nat → List TPhase × List Int → List TPhase × List Int
  | [], st => st
  | i :: sched, (phs, ts) =>
    match phs.get? i with
    | some ph =>
      let s := stepThread cfg now ph ts
      runSched cfg now sched (phs.set i s.1, s.2)
    | none => runSched cfg now sched (phs, ts)

/-- Number of calls that were allowed. -/
def countAllowed (phs : List TPhase) : Nat :=
  (phs.filter (fun ph => ph = .doneAllowed)).length

/-- Number of allowed calls among `n` serialized (sequential) checks of
the same caller at the same instant. -/
def seqAllowed (cfg : RLCfg) (now : Int) : Nat → List Int → Nat
  | 0, _ => 0
  | n + 1, ts =>
    match checkRateLimit cfg now ts with
    | (.allowed, ts') => seqAllowed cfg now n ts' + 1
    | (.limited _, ts') => seqAllowed cfg now n ts'

theorem purgeLedger_idem (cfg : RLCfg) (now : Int) (ts : List Int) :
    purgeLedger cfg now (purgeLedger cfg now ts) = purgeLedger cfg now ts := by
  simp [purgeLedger, List.filter_filter]

theorem purgeLedger_append_now (cfg : RLCfg) (now : Int) (ts : List Int)
    (hw : 1 ≤ cfg.windowMinutes) :
    purgeLedger cfg now (ts ++ [now]) = purgeLedger cfg now ts ++ [now] := by
  have hx : now - 60 * (cfg.windowMinutes : Int) < now := by
    have : (1 : Int) ≤ (cfg.windowMinutes : Int) := by exact_mod_cast hw
    omega
  simp [purgeLedger, List.filter_append, hx]

theorem seqAllowed_min_bound (cfg : RLCfg) (now : Int) (hw : 1 ≤ cfg.windowMinutes) :
    ∀ n ts, seqAllowed cfg now n ts + min cfg.maxRequests (purgeLedger cfg now ts).length ≤
      cfg.maxRequests := by
  intro n
  induction n with
  | zero => intro ts; simp only [seqAllowed]; omega
  | succ n ih =>
    intro ts
    rw [seqAllowed]
    unfold checkRateLimit
    by_cases hfull : cfg.maxRequests ≤ (purgeLedger cfg now ts).length
    · rw [if_pos hfull]
      dsimp only
      have h2 := ih (purgeLedger cfg now ts)
      rw [purgeLedger_idem] at h2
      omega
    · rw [if_neg hfull]
      dsimp only
      have h2 := ih (purgeLedger cfg now ts ++ [now])
      rw [purgeLedger_append_now cfg now (purgeLedger cfg now ts) hw,
        purgeLedger_idem] at h2
      simp only [List.length_append, List.length_singleton] at h2
      omega

/-- Serialized checks at one instant never allow more than the limit. -/
theorem seqAllowed_le (cfg : RLCfg) (now : Int) (hw : 1 ≤ cfg.windowMinutes)
    (n : Nat) (ts : List Int) : seqAllowed cfg now n ts ≤ cfg.maxRequests := by
  have := seqAllowed_min_bound cfg now hw n ts
  omega

theorem foldl_min_mem (xs : List Int) (x : Int) : xs.foldl min x ∈ x :: xs := by
  induction xs generalizing x with
  | nil => simp [List.foldl]
  | cons y ys ih =>
    rw [List.foldl_cons]
    have h := ih (min x y)
    rcases List.mem_cons.mp h with h2 | h2
    · rcases min_choice x y with hm | hm
      · rw [h2, hm]
        exact List.mem_cons_self _ _
      · rw [h2, hm]
        exact List.mem_cons.mpr (Or.inr (List.mem_cons_self _ _))
    · exact List.mem_cons.mpr (Or.inr (List.mem_cons.mpr (Or.inr h2)))

theorem listMinD_mem {s : List Int} (h : s ≠ []) (d : Int) : listMinD s d ∈ s := by
  cases s with
  | nil => exact absurd rfl h
  | cons x xs => exact foldl_min_mem xs x

/-- C2: `check_rate_limit` first purges the caller's stale timestamps;
with `max_requests` or more survivors it raises `RateLimitExceeded`
carrying `retry_after` equal to the time until the oldest survivor exits
the window (the `max(..., 1)` clamp of the source is the identity there),
without appending; otherwise it appends `now` and allows.  Concretely,
with max = 3 and a 60-second window, checks at t = 0, 10, 20 are allowed,
t = 30 is rejected with retry-after 30, and t = 61 is allowed again. -/
theorem C2_rate_limiter_check (cfg : RLCfg) (now : Int) (ts : List Int) :
    (cfg.maxRequests ≤ (purgeLedger cfg now ts).length →
      purgeLedger cfg now ts ≠ [] →
      checkRateLimit cfg now ts =
        (.limited (listMinD (purgeLedger cfg now ts) 0 +
            60 * (cfg.windowMinutes : Int) - now),
          purgeLedger cfg now ts)) ∧
    ((purgeLedger cfg now ts).length < cfg.maxRequests →
      checkRateLimit cfg now ts = (.allowed, purgeLedger cfg now ts ++ [now])) ∧
    runChecks ⟨3, 1⟩ [0, 10, 20, 30, 61] [] =
      ([.allowed, .allowed, .allowed, .limited 30, .allowed], [10, 20, 61]) := by
  refine ⟨?_, ?_, by decide⟩
  · intro hfull hne
    have hmem : listMinD (purgeLedger cfg now ts) 0 ∈ purgeLedger cfg now ts :=
      listMinD_mem hne 0
    have hgt : now - 60 * (cfg.windowMinutes : Int) < listMinD (purgeLedger cfg now ts) 0 := by
      have := List.mem_filter.mp hmem
      exact of_decide_eq_true this.2
    have hclamp : max (listMinD (purgeLedger cfg now ts) 0 +
        60 * (cfg.windowMinutes : Int) - now) 1 =
        listMinD (purgeLedger cfg now ts) 0 + 60 * (cfg.windowMinutes : Int) - now := by
      omega
    unfold checkRateLimit
    rw [if_pos hfull, hclamp]
  · intro hlt
    unfold checkRateLimit
    rw [if_neg (by omega)]

/-- C2 witness: the rejected check of the concrete scenario, via the
general clauses. -/
theorem C2_witness :
    checkRateLimit ⟨3, 1⟩ 30 [0, 10, 20] = (.limited 30, [0, 10, 20]) := by
  have h := (C2_rate_limiter_check ⟨3, 1⟩ 30 [0, 10, 20]).1 (by decide) (by decide)
  exact h

/-- C10 counterexample: the claim promises at most M allowed among N
concurrent checks regardless of interleaving.  `check_rate_limit` holds
no lock, and with max = 1 two overlapping checks that both purge and
decide before either appends are BOTH allowed (2 > 1). -/
theorem C10_counterexample :
    countAllowed (runSched ⟨1, 1⟩ 0 [0, 0, 1, 1, 0, 1]
        ([.beforePurge, .beforePurge], [])).1 = 2 := by decide

/-- C10 as amended: when the checks of one caller are serialized (run to
completion one after another, the locking discipline the spec prescribes),
at most `max_requests` of them are allowed, from any starting ledger. -/
theorem C10_serialized_bound (cfg : RLCfg) (now : Int) (n : Nat) (ts : List Int)
    (hw : 1 ≤ cfg.windowMinutes) :
    seqAllowed cfg now n ts ≤ cfg.maxRequests :=
  seqAllowed_le cfg now hw n ts

/-- C10 witness: two serialized checks against a limit of one. -/
theorem C10_witness : 1 ≤ 1 ∧ seqAllowed ⟨1, 1⟩ 0 2 [] ≤ 1 :=
  ⟨le_refl 1, C10_serialized_bound ⟨1, 1⟩ 0 2 [] (le_refl 1)⟩

theorem takeToLast_eq_none {c : Char} {l : List Char} :
    takeToLast c l = none ↔ c ∉ l := by
  induction l with
  | nil => simp [takeToLast]
  | cons x xs ih =>
    rw [takeToLast]
    rcases htx : takeToLast c xs with _ | t
    · have hxs : c ∉ xs := ih.mp htx
      by_cases hx : x = c
      · subst hx
        simp
      · simp [hx, List.mem_cons, hxs, show c ≠ x from fun h => hx h.symm]
    · have hxs : c ∈ xs := by
        by_contra hmm
        rw [ih.mpr hmm] at htx
        exact Option.noConfusion htx
      simp [List.mem_cons, hxs]

theorem takeToLast_spec {c : Char} {l : List Char} (h : c ∈ l) :
    ∃ mid tail, l = mid ++ c :: tail ∧ c ∉ tail ∧
      takeToLast c l = some (mid ++ [c]) := by
  induction l with
  | nil => simp at h
  | cons x xs ih =>
    by_cases hxs : c ∈ xs
    · obtain ⟨mid, tail, hsplit, htail, htake⟩ := ih hxs
      refine ⟨x :: mid, tail, by simp [hsplit], htail, ?_⟩
      rw [takeToLast, htake]
      rfl
    · have hx : x = c := by
        rcases List.mem_cons.mp h with he | hm
        · exact he.symm
        · exact absurd hm hxs
      refine ⟨[], xs, by simp [hx], hxs, ?_⟩
      rw [takeToLast, takeToLast_eq_none.mpr hxs, if_pos hx]
      simp [hx]

theorem braceSpan_spec (pre post : List Char)
    (hpre : ∀ ch ∈ pre, ch ≠ '{') (hclose : '}' ∈ post) :
    ∃ mid tail, post = mid ++ '}' :: tail ∧ '}' ∉ tail ∧
      braceSpan (pre ++ '{' :: post) = some ('{' :: (mid ++ ['}'])) := by
  obtain ⟨mid, tail, hsplit, htail, htake⟩ := takeToLast_spec hclose
  refine ⟨mid, tail, hsplit, htail, ?_⟩
  induction pre with
  | nil =>
    rw [List.nil_append, braceSpan, if_pos rfl, htake]
  | cons p ps ih =>
    have hp : p ≠ '{' := hpre p (List.mem_cons_self p ps)
    rw [List.cons_append, braceSpan, if_neg hp]
    exact ih (fun ch hm => hpre ch (List.mem_cons.mpr (Or.inr hm)))

def exC5 : List Char :=
  strL "see " ++ ['{', '"', 'a', '"', ':', '1', '}'] ++ strL " and " ++
    ['{', '"', 'b', '"', ':', '2', '}']

/-- C5 counterexample: the claim says extraction finds the FIRST BALANCED
`{...}` span by bracket matching; on a text holding two balanced objects
the source's greedy regex `\{[\s\S]*\}` instead returns the span from the
first `{` to the LAST `}` - not the first balanced span. -/
theorem C5_counterexample :
    extractJsonFromMarkdown exC5 =
      ['{', '"', 'a', '"', ':', '1', '}'] ++ strL " and " ++
        ['{', '"', 'b', '"', ':', '2', '}'] ∧
    extractJsonFromMarkdown exC5 ≠ ['{', '"', 'a', '"', ':', '1', '}'] := by
  exact ⟨by decide, by decide⟩

/-- C5 as amended: with no usable fenced block, extraction returns the
greedy span from the first `{` (the prefix before it holds no `{`) to the
last `}` of the whole text, with no bracket balancing and no `[...]`
handling; a fenced block is used only when its stripped content starts
with `{` and ends with `}`. -/
theorem C5_greedy_extraction (pre post : List Char)
    (hfence : fenceContent (pre ++ '{' :: post) = none)
    (hpre : ∀ ch ∈ pre, ch ≠ '{') (hclose : '}' ∈ post) :
    ∃ mid tail, post = mid ++ '}' :: tail ∧ '}' ∉ tail ∧
      extractJsonFromMarkdown (pre ++ '{' :: post) = '{' :: (mid ++ ['}']) := by
  obtain ⟨mid, tail, hsplit, htail, hspan⟩ := braceSpan_spec pre post hpre hclose
  refine ⟨mid, tail, hsplit, htail, ?_⟩
  unfold extractJsonFromMarkdown
  rw [hfence, hspan]

/-- C5 witness: the two-object text through the amended description. -/
theorem C5_witness :
    ∃ mid tail,
      (['"', 'a', '"', ':', '1', '}'] ++ strL " and " ++
          ['{', '"', 'b', '"', ':', '2', '}']) = mid ++ '}' :: tail ∧
      '}' ∉ tail ∧
      extractJsonFromMarkdown (strL "see " ++ '{' ::
        (['"', 'a', '"', ':', '1', '}'] ++ strL " and " ++
          ['{', '"', 'b', '"', ':', '2', '}'])) = '{' :: (mid ++ ['}']) := by
  exact C5_greedy_extraction (strL "see ") _ (by decide) (by decide) (by decide)

/- ===================================================================
Claim C9: idempotence analysis of the repair stage `_clean_json_text`.
The comma-collapse substitution is not idempotent (`,,]` shrinks twice),
but on text free of `,` and `"` every substitution stage is the identity
and the stage reduces to `str.strip()`, which is idempotent.
=================================================================== -/

theorem subScan_id (step : List Char → Option (List Char × List Char)) :
    ∀ (fuel : Nat) (l : List Char), (∀ u, u <:+ l → step u = none) →
      subScan step fuel l = l := by
  intro fuel
  induction fuel with
  | zero => intro l _; rfl
  | succ fuel ih =>
    intro l h
    cases l with
    | nil => rfl
    | cons c cs =>
      have hs := h (c :: cs) (List.suffix_refl _)
      simp only [subScan, hs]
      exact congrArg (c :: .) (ih cs (fun u hu => h u (hu.trans (List.suffix_cons c cs))))

theorem reSub_id (step : List Char → Option (List Char × List Char)) (l : List Char)
    (h : ∀ u, u <:+ l → step u = none) : reSub step l = l :=
  subScan_id step l.length l h

theorem subScan_replace_self (c : Char) :
    ∀ (fuel : Nat) (l : List Char), subScan (replaceStep [c] [c]) fuel l = l := by
  intro fuel
  induction fuel with
  | zero => intro l; rfl
  | succ fuel ih =>
    intro l
    cases l with
    | nil => rfl
    | cons x xs =>
      by_cases hx : x = c
      · subst hx
        simp only [subScan, replaceStep]
        rw [if_pos (by simp)]
        simpa using ih xs
      · simp only [subScan, replaceStep]
        rw [if_neg (by simp [hx])]
        exact congrArg (x :: .) (ih xs)

theorem pyReplace_self (c : Char) (l : List Char) : pyReplace [c] [c] l = l :=
  subScan_replace_self c l.length l

theorem quoteStep_none (u : List Char) (h : ',' ∉ u) :
    replaceStep quoteFixPat ['"'] u = none := by
  have hne : ¬ u.take quoteFixPat.length = quoteFixPat := by
    intro heq
    cases u with
    | nil => exact absurd heq (by decide)
    | cons x xs =>
      have h15 : (x :: xs).take quoteFixPat.length = x :: xs.take 14 := rfl
      rw [h15] at heq
      have hx : x = ',' := by
        have hh := congrArg (fun t => t.headD ' ') heq
        simpa [quoteFixPat] using hh
      exact h (hx ▸ List.mem_cons_self x xs)
  simp only [replaceStep, if_neg hne]

theorem commaFixStep_none (u : List Char) (h : ',' ∉ u) : commaFixStep u = none := by
  rw [commaFixStep.eq_def]
  split
  · simp at h
  · rfl

theorem inchFixStep_none (u : List Char) (h : '"' ∉ u) : inchFixStep u = none := by
  rw [inchFixStep.eq_def]
  split
  · simp at h
  · rfl

theorem urlKeyHead_none (u : List Char) (h : '"' ∉ u) : urlKeyHead u = none := by
  rw [urlKeyHead.eq_def]
  split
  · simp at h
  · rfl

theorem urlFix1Step_none (u : List Char) (h : '"' ∉ u) : urlFix1Step u = none := by
  simp only [urlFix1Step, urlKeyHead_none u h]

theorem urlFix2Step_none (u : List Char) (h : '"' ∉ u) : urlFix2Step u = none := by
  simp only [urlFix2Step, urlKeyHead_none u h]

theorem escQuoteFix3Step_none (u : List Char) (h : '"' ∉ u) :
    escQuoteFix3Step u = none := by
  simp only [escQuoteFix3Step]
  by_cases hrun : (u.takeWhile isWordWs).isEmpty
  · simp [hrun]
  · rw [if_neg hrun]
    split
    · rename_i rest heq
      have hmem : '"' ∈ u.drop (u.takeWhile isWordWs).length := by
        rw [heq]
        exact List.mem_cons_of_mem '\\' (List.mem_cons_self '"' rest)
      exact absurd (List.IsSuffix.mem hmem (List.drop_suffix _ _)) h
    · rfl

theorem eolQuoteFix4Step_none (u : List Char) (h : '"' ∉ u) :
    eolQuoteFix4Step u = none := by
  rw [eolQuoteFix4Step.eq_def]
  split
  · simp at h
  · rfl

theorem strCtrlScan_id (esc : Char) :
    ∀ (fuel : Nat) (l : List Char), '"' ∉ l → strCtrlScan esc fuel l = l := by
  intro fuel
  induction fuel with
  | zero => intro l _; rfl
  | succ fuel ih =>
    intro l h
    rw [strCtrlScan.eq_def]
    split
    · rfl
    · rfl
    · simp at h
    · rename_i d1 d2 fuel2 c cs hnc heq
      have hf : fuel2 = fuel := by omega
      subst hf
      exact congrArg (c :: .) (ih cs (fun hm => h (List.mem_cons_of_mem c hm)))

theorem dropWhile_head_false (p : Char → Bool) :
    ∀ (l : List Char) (x : Char) (xs : List Char),
      l.dropWhile p = x :: xs → p x = false := by
  intro l
  induction l with
  | nil => intro x xs hx; exact absurd hx (by simp)
  | cons a as ih =>
    intro x xs hx
    rw [List.dropWhile_cons] at hx
    split_ifs at hx with ha
    · exact ih x xs hx
    · cases hx
      simpa using ha

theorem pyStrip_subset (l : List Char) : ∀ x ∈ pyStrip l, x ∈ l := by
  intro x hx
  rw [pyStrip, List.mem_reverse] at hx
  have h1 := List.IsSuffix.mem hx (List.dropWhile_suffix _)
  rw [List.mem_reverse] at h1
  exact List.IsSuffix.mem h1 (List.dropWhile_suffix _)

theorem pyStrip_idem (l : List Char) : pyStrip (pyStrip l) = pyStrip l := by
  have hsuf : ((l.dropWhile isPyWs).reverse.dropWhile isPyWs) <:+ (l.dropWhile isPyWs).reverse :=
    List.dropWhile_suffix _
  have hpre : pyStrip l <+: l.dropWhile isPyWs := by
    have hp := List.reverse_prefix.mpr hsuf
    rw [List.reverse_reverse] at hp
    exact hp
  have hdw : (pyStrip l).dropWhile isPyWs = pyStrip l := by
    cases hS : pyStrip l with
    | nil => rfl
    | cons x xs =>
      rw [hS] at hpre
      obtain ⟨t, ht⟩ := hpre
      have hx : isPyWs x = false :=
        dropWhile_head_false isPyWs l x (xs ++ t) (by rw [← ht]; rfl)
      rw [List.dropWhile_cons, hx]
      simp
  show (((pyStrip l).dropWhile isPyWs).reverse.dropWhile isPyWs).reverse = pyStrip l
  rw [hdw]
  have hrev : (pyStrip l).reverse = (l.dropWhile isPyWs).reverse.dropWhile isPyWs := by
    rw [pyStrip, List.reverse_reverse]
  rw [hrev, List.dropWhile_idempotent]
  rfl

theorem cleanJsonText_quiet (s : List Char) (hc : ',' ∉ s) (hq : '"' ∉ s) :
    cleanJsonText s = pyStrip s := by
  have hmem : ∀ u, u <:+ s → ',' ∉ u ∧ '"' ∉ u := fun u hu =>
    ⟨fun hm => hc (List.IsSuffix.mem hm hu), fun hm => hq (List.IsSuffix.mem hm hu)⟩
  have h1 : pyReplace quoteFixPat ['"'] s = s :=
    reSub_id _ s (fun u hu => quoteStep_none u (hmem u hu).1)
  have h1b : pyReplace [apoC] [apoC] s = s := pyReplace_self apoC s
  have h2 : reSub commaFixStep s = s :=
    reSub_id _ s (fun u hu => commaFixStep_none u (hmem u hu).1)
  have h3 : reSub inchFixStep s = s :=
    reSub_id _ s (fun u hu => inchFixStep_none u (hmem u hu).2)
  have h4 : reSub urlFix1Step s = s :=
    reSub_id _ s (fun u hu => urlFix1Step_none u (hmem u hu).2)
  have h5 : reSub urlFix2Step s = s :=
    reSub_id _ s (fun u hu => urlFix2Step_none u (hmem u hu).2)
  have h6 : reSub escQuoteFix3Step s = s :=
    reSub_id _ s (fun u hu => escQuoteFix3Step_none u (hmem u hu).2)
  have h7 : reSub eolQuoteFix4Step s = s :=
    reSub_id _ s (fun u hu => eolQuoteFix4Step_none u (hmem u hu).2)
  simp only [cleanJsonText]
  rw [h1, h1b, h2, h3, h4, h5, h6, h7,
    strCtrlScan_id 'n' s.length s hq, strCtrlScan_id 't' s.length s hq]

/-- C9 (counterexample): `_clean_json_text` is NOT idempotent.  On the
three-character text `,,]` the comma-collapse substitution removes one
comma per pass, so a second application changes the output again. -/
theorem C9_counterexample :
    cleanJsonText [',', ',', ']'] = [',', ']'] ∧
    cleanJsonText (cleanJsonText [',', ',', ']']) = [']'] := by
  exact ⟨by decide, by decide⟩

/-- C9 (amended): the repair stage is idempotent on every text containing
neither `,` nor `"`; on such text every substitution stage is the
identity and `_clean_json_text` acts as `str.strip()`, whose second
application changes nothing. -/
theorem C9_clean_idempotent_on_quiet (s : List Char)
    (hc : ',' ∉ s) (hq : '"' ∉ s) :
    cleanJsonText s = pyStrip s ∧
    cleanJsonText (cleanJsonText s) = cleanJsonText s := by
  have h1 := cleanJsonText_quiet s hc hq
  refine ⟨h1, ?_⟩
  rw [h1]
  have hc2 : ',' ∉ pyStrip s := fun hm => hc (pyStrip_subset s ',' hm)
  have hq2 : '"' ∉ pyStrip s := fun hm => hq (pyStrip_subset s '"' hm)
  rw [cleanJsonText_quiet (pyStrip s) hc2 hq2, pyStrip_idem]

/-- C9 witness: the amended idempotence theorem at the concrete quiet
text `  ok  `. -/
theorem C9_witness :
    cleanJsonText (strL "  ok  ") = pyStrip (strL "  ok  ") ∧
    cleanJsonText (cleanJsonText (strL "  ok  ")) = cleanJsonText (strL "  ok  ") :=
  C9_clean_idempotent_on_quiet (strL "  ok  ") (by decide) (by decide)

/- ===================================================================
Claim C4: totality of the Recovery Parser and the sentinel examples.
=================================================================== -/

theorem safeJsonLoads_parses (t : List Char) (v : Json)
    (h : safeJsonLoads t = some v) : ∃ s, jsonParse s = some v := by
  simp only [safeJsonLoads] at h
  split_ifs at h with h0
  split at h
  · rename_i v2 heq
    obtain rfl : v2 = v := Option.some.inj h
    exact ⟨_, heq⟩
  · exact ⟨_, h⟩

/-- The spec's "unrecoverable garbage" example, quotes included. -/
def c4bad : List Char := '"' :: (strL "not json at all " ++ ['{', '{', '{', '"'])

/-- C4 (counterexample): the spec's "unrecoverable garbage" example - the
sixteen-word text wrapped in double quotes - is itself a valid JSON string
literal, so the Recovery Parser returns that string value rather than the
sentinel the spec promises. -/
theorem C4_counterexample :
    recoverText c4bad = some (.str (strL "not json at all " ++ ['{', '{', '{'])) ∧
    recoverText c4bad ≠ none := by
  refine ⟨rfl, ?_⟩
  intro hn
  rw [show recoverText c4bad =
    some (Json.str (strL "not json at all " ++ ['{', '{', '{'])) from rfl] at hn
  exact Option.noConfusion hn

/-- C4 (amended): the Recovery Parser is total and returns only strictly
parseable values or the sentinel: every returned value is the output of a
successful strict JSON parse; the prose-wrapped trailing-comma example
recovers to the one-field object; the same garbage text WITHOUT the outer
quotes does map to the sentinel; and the validator maps the sentinel to
the failed null response, whose status is "failed" and whose
recommendations list is empty. -/
theorem C4_recovery_total (t : List Char) (v : Json) (ts : List Char)
    (h : recoverText t = some v) :
    (∃ s, jsonParse s = some v) ∧
    recoverText (strL "Sure! Here" ++ apoC :: strL "s your data: " ++
      ['{', '"', 'a', '"', ':', ' ', '1', ',', '}']) =
      some (.obj [(strL "a", .num 1)]) ∧
    recoverText (strL "not json at all " ++ ['{', '{', '{']) = none ∧
    validateResponse none ts = .ok (failedNullResponse ts) ∧
    (∃ kvs, failedNullResponse ts = Json.obj kvs ∧
      getKey kvs (strL "status") = some (.str (strL "failed")) ∧
      getKey kvs (strL "recommendations") = some (.arr [])) := by
  refine ⟨?_, rfl, rfl, rfl, _, rfl, rfl, rfl⟩
  rw [recoverText] at h
  exact safeJsonLoads_parses _ v h

/-- C4 witness: the amended theorem at the spec's recoverable example. -/
theorem C4_witness :
    (∃ s, jsonParse s = some (Json.obj [(strL "a", Json.num 1)])) ∧
    recoverText (strL "Sure! Here" ++ apoC :: strL "s your data: " ++
      ['{', '"', 'a', '"', ':', ' ', '1', ',', '}']) =
      some (.obj [(strL "a", .num 1)]) ∧
    recoverText (strL "not json at all " ++ ['{', '{', '{']) = none ∧
    validateResponse none (strL "T") = .ok (failedNullResponse (strL "T")) ∧
    (∃ kvs, failedNullResponse (strL "T") = Json.obj kvs ∧
      getKey kvs (strL "status") = some (.str (strL "failed")) ∧
      getKey kvs (strL "recommendations") = some (.arr [])) :=
  C4_recovery_total (strL "Sure! Here" ++ apoC :: strL "s your data: " ++
    ['{', '"', 'a', '"', ':', ' ', '1', ',', '}'])
    (.obj [(strL "a", .num 1)]) (strL "T") (by rfl)

/- ===================================================================
Claims C6 and C7: error handling of `PhoneAgent.handle_request`.
=================================================================== -/

/-- A request dict carrying a truthy location. -/
def c6req : List (List Char × Json) := [(strL "location", Json.str (strL "NYC"))]

/-- An environment whose vector store raises and whose serper tool is
registered and healthy. -/
def c6env : PhoneEnv :=
  ⟨[], [], [], some ⟨Except.error (strL "boom")⟩,
    some ⟨Except.ok (Json.arr []), Except.ok (strL "x")⟩⟩

/-- C6 (counterexample): with the vector store raising and a healthy
serper tool registered, `handle_request` does NOT fall back to live
search: the store's exception reaches the blanket handler and the request
returns the failure dict with no provenance tag at all. -/
theorem C6_counterexample :
    phoneHandleRequest c6env c6req [] = (errDict (strL "boom") c6req, none) ∧
    (phoneHandleRequest c6env c6req []).2 ≠ some (strL "Web Search") := by
  exact ⟨rfl, by decide⟩

/-- C6 (amended): whenever the vector store raises and the location is
truthy (so the store is actually queried), the whole try body of
`handle_request` dies: the response is the blanket-handler failure dict
and the live-search fallback never runs - a store error is NOT treated
like an insufficient result set. -/
theorem C6_store_error_no_fallback (env : PhoneEnv) (req : List (List Char × Json))
    (e : List Char) (ts : List Char)
    (hv : env.vectorDb = some ⟨Except.error e⟩)
    (ht : jsonTruthy (phoneLocation env req) = true) :
    phoneHandleRequest env req ts = (errDict e req, none) := by
  have hr : phoneRetrieve env req = .error e := by
    simp only [phoneRetrieve, hv, ht]
  simp only [phoneHandleRequest, phoneHandleCore, hr]

/-- C6 witness: the amended theorem at the concrete raising store. -/
theorem C6_witness :
    phoneHandleRequest c6env c6req (strL "T") = (errDict (strL "boom") c6req, none) :=
  C6_store_error_no_fallback c6env c6req (strL "boom") (strL "T") rfl (by decide)

/-- C7 (counterexample): an over-quota ledger makes `generate` raise
`RateLimitExceeded` only when a caller id is supplied; the agent
pipeline's own calls go through `BaseAgent.contact`, which supplies no
caller id, and for them the very same over-quota state raises nothing -
so no `RateLimitExceeded` ever crosses the pipeline's boundary. -/
theorem C7_counterexample :
    (generate ⟨1, 1⟩ 0 [0] true (.ok (strL "hi")) (.ok [])).1 = .rateLimited 60 ∧
    (generate ⟨1, 1⟩ 0 [0] false (.ok (strL "hi")) (.ok [])).1 = .reply (strL "hi") := by
  exact ⟨rfl, rfl⟩

/-- C7 (amended): every failure of the try body of `handle_request` is
absorbed and returned as data - a failure dict with status "failed" and
the error string - and the pipeline's generation calls, carrying no
caller id, can never raise `RateLimitExceeded` in the first place. -/
theorem C7_only_data_failures (env : PhoneEnv) (req : List (List Char × Json))
    (ts e : List Char) (cfg : RLCfg) (now : Int) (led : List Int)
    (m b : Except (List Char) (List Char))
    (h : phoneHandleCore env req ts = .error e) :
    phoneHandleRequest env req ts = (errDict e req, none) ∧
    (∃ kvs, errDict e req = Json.obj kvs ∧
      getKey kvs (strL "status") = some (.str (strL "failed"))) ∧
    (generate cfg now led false m b).1 = .reply (genBody m b) := by
  refine ⟨?_, ⟨_, rfl, rfl⟩, rfl⟩
  simp only [phoneHandleRequest, h]

/-- C7 witness: the amended theorem at a concrete failing request. -/
theorem C7_witness :
    phoneHandleRequest c6env c6req (strL "TT") = (errDict (strL "boom") c6req, none) ∧
    (∃ kvs, errDict (strL "boom") c6req = Json.obj kvs ∧
      getKey kvs (strL "status") = some (.str (strL "failed"))) ∧
    (generate ⟨1, 1⟩ 0 [0] false (.ok (strL "hi")) (.ok [])).1 =
      .reply (genBody (.ok (strL "hi")) (.ok [])) :=
  C7_only_data_failures c6env c6req (strL "TT") (strL "boom") ⟨1, 1⟩ 0 [0]
    (.ok (strL "hi")) (.ok []) rfl

/- ===================================================================
Claim C3: provenance of the retrieval step.
=================================================================== -/

/-- C3: with the vector store registered and healthy, the location truthy,
the serper tool registered and healthy, and the final reply validating,
the provenance tag of the returned response is "Web Search" exactly when
the store returned fewer than 3 devices, and "Vector Database" exactly
when it returned at least 3. -/
theorem C3_provenance (env : PhoneEnv) (req : List (List Char × Json))
    (devs : List Json) (j : Json) (fmt : List Char) (ts : List Char) (r : Json)
    (hv : env.vectorDb = some ⟨Except.ok devs⟩)
    (ht : jsonTruthy (phoneLocation env req) = true)
    (hs : env.serper = some ⟨Except.ok j, Except.ok fmt⟩)
    (hval : validateResponse (recoverText env.finalReply) ts = .ok r) :
    (devs.length < 3 → phoneHandleRequest env req ts = (r, some (strL "Web Search"))) ∧
    (3 ≤ devs.length → phoneHandleRequest env req ts = (r, some (strL "Vector Database"))) := by
  constructor
  · intro hlt
    have hcond : (!devs.isEmpty && decide (3 ≤ devs.length)) = false := by
      have hd : decide (3 ≤ devs.length) = false := decide_eq_false (Nat.not_le.mpr hlt)
      simp [hd]
    have hr : phoneRetrieve env req = .ok (some fmt, some (strL "Web Search")) := by
      simp [phoneRetrieve, hv, ht, hcond, hs]
    simp only [phoneHandleRequest, phoneHandleCore, hr, hval]
  · intro hge
    have hne : devs.isEmpty = false := by
      cases devs with
      | nil => simp at hge
      | cons a as => rfl
    have hcond : (!devs.isEmpty && decide (3 ≤ devs.length)) = true := by
      simp [hne, hge]
    have hr : phoneRetrieve env req =
        .ok (some (serJson (.arr devs)), some (strL "Vector Database")) := by
      simp [phoneRetrieve, hv, ht, hcond]
    simp only [phoneHandleRequest, phoneHandleCore, hr, hval]

/-- An environment whose vector store is healthy but empty and whose
serper tool is healthy. -/
def c3env : PhoneEnv :=
  ⟨[], [], [], some ⟨Except.ok []⟩,
    some ⟨Except.ok (Json.arr []), Except.ok (strL "web")⟩⟩

/-- C3 witness: the provenance theorem at a store returning 0 devices -
the live-search branch fires and tags the response "Web Search". -/
theorem C3_witness :
    phoneHandleRequest c3env c6req (strL "T") =
      (failedNullResponse (strL "T"), some (strL "Web Search")) :=
  (C3_provenance c3env c6req [] (Json.arr []) (strL "web") (strL "T")
    (failedNullResponse (strL "T")) rfl (by decide) rfl rfl).1 (by decide)

/- ===================================================================
Claim C8: serialize/re-parse round trip of validator outputs.
=================================================================== -/

theorem validateResponse_ok_wf (resp : Option Json) (ts : List Char) (out : Json)
    (h : validateResponse resp ts = .ok out) : wfV out = true := by
  rcases resp with _ | v
  · obtain rfl := Except.ok.inj h
    rfl
  · rcases v with _ | b | n | s | xs | kvs0
    · exact Except.noConfusion h
    · exact Except.noConfusion h
    · exact Except.noConfusion h
    · exact Except.noConfusion h
    · exact Except.noConfusion h
    · simp only [validateResponse] at h
      split at h
      · exact Except.noConfusion h
      · split at h
        · rename_i r heq
          obtain rfl := Except.ok.inj h
          exact jsonParse_wf _ _ heq
        · obtain rfl := Except.ok.inj h
          rfl

/-- C8: every value the Response Validator returns (with any status)
survives the strict serialize/re-parse round trip - re-parsing its
serialized form succeeds and yields the identical value - and the
round-trip-failure replacement object always carries a `partial_data`
string preview of at most 500 characters. -/
theorem C8_ok_roundtrip (resp : Option Json) (ts : List Char) (out : Json)
    (h : validateResponse resp ts = .ok out) :
    jsonParse (serJson out) = some out ∧
    (∀ v ts2, ∃ kvs p, validationFailure ts2 v = Json.obj kvs ∧
      getKey kvs (strL "partial_data") = some (.str p) ∧ p.length ≤ 500) := by
  refine ⟨jsonParse_serJson out (validateResponse_ok_wf resp ts out h), ?_⟩
  intro v ts2
  refine ⟨_, (pyReprV v).take 500, rfl, rfl, ?_⟩
  rw [List.length_take]
  exact Nat.min_le_left _ _

/-- C8 witness: the round-trip theorem at the validator output for the
sentinel input. -/
theorem C8_witness :
    jsonParse (serJson (failedNullResponse (strL "T"))) =
      some (failedNullResponse (strL "T")) :=
  (C8_ok_roundtrip none (strL "T") (failedNullResponse (strL "T")) rfl).1

/- ===================================================================
Claim C1: the recommendation filter and the status invariant.
=================================================================== -/

theorem getKey_setKey_self (kvs : List (List Char × Json)) (k : List Char) (v : Json) :
    getKey (setKey kvs k v) k = some v := by
  induction kvs with
  | nil => simp [setKey, getKey]
  | cons q kvs ih =>
    obtain ⟨k0, v0⟩ := q
    by_cases hk : k0 = k
    · subst hk
      rw [setKey, if_pos rfl]
      simp [getKey]
    · rw [setKey, if_neg hk]
      simp only [getKey]
      rw [if_neg hk]
      exact ih

theorem getKey_setKey_ne (kvs : List (List Char × Json)) (k k2 : List Char) (v : Json)
    (h : k2 ≠ k) : getKey (setKey kvs k v) k2 = getKey kvs k2 := by
  induction kvs with
  | nil =>
    simp only [setKey, getKey]
    rw [if_neg (fun he => h he.symm)]
  | cons q kvs ih =>
    obtain ⟨k0, v0⟩ := q
    by_cases hk : k0 = k
    · subst hk
      rw [setKey, if_pos rfl]
      simp only [getKey]
      rw [if_neg (fun he => h he.symm), if_neg (fun he => h he.symm)]
    · rw [setKey, if_neg hk]
      simp only [getKey]
      by_cases h2 : k0 = k2
      · rw [if_pos h2, if_pos h2]
      · rw [if_neg h2, if_neg h2]
        exact ih

theorem hasKey_of_getKey_some {kvs : List (List Char × Json)} {k : List Char} {v : Json}
    (h : getKey kvs k = some v) : hasKey kvs k = true := by
  induction kvs with
  | nil => simp [getKey] at h
  | cons q kvs ih =>
    obtain ⟨k0, v0⟩ := q
    simp only [getKey] at h
    simp only [hasKey]
    by_cases hk : k0 = k
    · simp [hk]
    · rw [if_neg hk] at h
      simp [hk, ih h]

theorem getKey_wfFs {kvs : List (List Char × Json)} {k : List Char} {v : Json}
    (hw : wfFs kvs = true) (h : getKey kvs k = some v) : wfV v = true := by
  induction kvs with
  | nil => simp [getKey] at h
  | cons q kvs ih =>
    obtain ⟨k0, v0⟩ := q
    simp only [wfFs, Bool.and_eq_true] at hw
    simp only [getKey] at h
    by_cases hk : k0 = k
    · rw [if_pos hk] at h
      obtain rfl := Option.some.inj h
      exact hw.1
    · rw [if_neg hk] at h
      exact ih hw.2 h

theorem wfLs_filter (p : Json → Bool) {xs : List Json} (h : wfLs xs = true) :
    wfLs (xs.filter p) = true := by
  induction xs with
  | nil => rfl
  | cons x xs ih =>
    simp only [wfLs, Bool.and_eq_true] at h
    rw [List.filter_cons]
    by_cases hp : p x = true
    · rw [if_pos hp]
      simp only [wfLs, Bool.and_eq_true]
      exact ⟨h.1, ih h.2⟩
    · rw [if_neg hp]
      exact ih h.2

/-- The kept entry of the C1 example. -/
def c1RecX : Json := .obj [(strL "name", Json.str (strL "X"))]

/-- The dropped entry of the C1 example (no identifying field). -/
def c1RecBad : Json := .obj [(strL "foo", Json.str (strL "bar"))]

/-- The C1 example input: recommendations `[{"name": "X"}, {"foo": "bar"}]`
and no `status` key. -/
def c1Input : List (List Char × Json) :=
  [(strL "recommendations", Json.arr [c1RecX, c1RecBad])]

/-- C1 (counterexample): on the spec's own example input the validator
keeps exactly the `X` entry, but the returned response has NO `status`
key at all - the validator never sets status "ok", so "status ok iff a
valid entry remains" is false. -/
theorem C1_counterexample :
    ∃ kvs, validateResponse (some (.obj c1Input)) (strL "T") = .ok (.obj kvs) ∧
      getKey kvs (strL "recommendations") = some (.arr [c1RecX]) ∧
      getKey kvs (strL "status") = none := by
  exact ⟨_, rfl, rfl, rfl⟩

/-- C1 (amended): for a well-formed input whose `recommendations` key
holds a non-empty list, the validator keeps exactly the entries passing
the identifying-field filter; when NO entry survives it sets status
"failed", and when at least one survives it leaves the `status` key
exactly as it was in the input (it never sets status "ok"). -/
theorem C1_validator_filter (kvs0 : List (List Char × Json)) (recs : List Json)
    (ts : List Char)
    (hwf : wfV (.obj kvs0) = true)
    (hrecs : getKey kvs0 (strL "recommendations") = some (.arr recs))
    (hne : jsonTruthy (.arr recs) = true) :
    ∃ kvsOut, validateResponse (some (.obj kvs0)) ts = .ok (.obj kvsOut) ∧
      getKey kvsOut (strL "recommendations") = some (.arr (recs.filter validRec)) ∧
      ((recs.filter validRec).isEmpty = true →
        getKey kvsOut (strL "status") = some (.str (strL "failed"))) ∧
      ((recs.filter validRec).isEmpty = false →
        getKey kvsOut (strL "status") = getKey kvs0 (strL "status")) := by
  have hkf : keysFresh kvs0 = true ∧ wfFs kvs0 = true := by
    simpa [wfV, Bool.and_eq_true] using hwf
  have hhk : hasKey kvs0 (strL "recommendations") = true := hasKey_of_getKey_some hrecs
  have hwrecs : wfLs recs = true := by
    simpa [wfV] using getKey_wfFs hkf.2 hrecs
  have hkvs2 :
      getKey (ensuredKvs kvs0 ts) (strL "recommendations") = some (.arr recs) ∧
      getKey (ensuredKvs kvs0 ts) (strL "status") = getKey kvs0 (strL "status") ∧
      keysFresh (ensuredKvs kvs0 ts) = true ∧ wfFs (ensuredKvs kvs0 ts) = true := by
    simp only [ensuredKvs, hhk, if_true]
    by_cases hm : hasKey kvs0 (strL "metadata") = true
    · simp [hm, hrecs, hkf.1, hkf.2]
    · rw [if_neg (by simp [hm])]
      refine ⟨?_, ?_, keysFresh_setKey hkf.1 _ _, wfFs_setKey hkf.2 (by rfl) _⟩
      · rw [getKey_setKey_ne _ _ _ _ (by decide)]
        exact hrecs
      · rw [getKey_setKey_ne _ _ _ _ (by decide)]
  obtain ⟨h2r, h2s, h2k, h2w⟩ := hkvs2
  have hwfil : wfV (.arr (recs.filter validRec)) = true := by
    simpa [wfV] using wfLs_filter validRec hwrecs
  cases hemp : (recs.filter validRec).isEmpty with
  | false =>
    have hfb : filterBranch (ensuredKvs kvs0 ts) =
        setKey (ensuredKvs kvs0 ts) (strL "recommendations")
          (.arr (recs.filter validRec)) := by
      simp [filterBranch, h2r, hemp]
    have hkC : keysFresh (setKey (ensuredKvs kvs0 ts) (strL "recommendations")
        (.arr (recs.filter validRec))) = true := keysFresh_setKey h2k _ _
    have hwC : wfFs (setKey (ensuredKvs kvs0 ts) (strL "recommendations")
        (.arr (recs.filter validRec))) = true := wfFs_setKey h2w hwfil _
    have hrt : jsonParse (serJson (.obj (setKey (ensuredKvs kvs0 ts)
        (strL "recommendations") (.arr (recs.filter validRec))))) =
        some (.obj (setKey (ensuredKvs kvs0 ts) (strL "recommendations")
          (.arr (recs.filter validRec)))) := by
      refine jsonParse_serJson _ ?_
      simp [wfV, Bool.and_eq_true, hkC, hwC]
    refine ⟨setKey (ensuredKvs kvs0 ts) (strL "recommendations")
      (.arr (recs.filter validRec)), ?_, ?_, ?_, ?_⟩
    · simp [validateResponse, h2r, hne, hfb, hrt]
    · exact getKey_setKey_self _ _ _
    · intro hcontra
      exact Bool.noConfusion hcontra
    · intro _
      rw [getKey_setKey_ne _ _ _ _ (by decide)]
      exact h2s
  | true =>
    have hval0 : recs.filter validRec = [] := by
      simpa [List.isEmpty_iff] using hemp
    have hfb : filterBranch (ensuredKvs kvs0 ts) =
        setKey (setKey (setKey (ensuredKvs kvs0 ts) (strL "recommendations")
            (.arr (recs.filter validRec)))
          (strL "error") (.str (strL "No valid recommendations found in response")))
          (strL "status") (.str (strL "failed")) := by
      simp [filterBranch, h2r, hemp]
    have hk1 : keysFresh (setKey (setKey (setKey (ensuredKvs kvs0 ts)
        (strL "recommendations") (.arr (recs.filter validRec)))
        (strL "error") (.str (strL "No valid recommendations found in response")))
        (strL "status") (.str (strL "failed"))) = true :=
      keysFresh_setKey (keysFresh_setKey (keysFresh_setKey h2k _ _) _ _) _ _
    have hw1 : wfFs (setKey (setKey (setKey (ensuredKvs kvs0 ts)
        (strL "recommendations") (.arr (recs.filter validRec)))
        (strL "error") (.str (strL "No valid recommendations found in response")))
        (strL "status") (.str (strL "failed"))) = true :=
      wfFs_setKey (wfFs_setKey (wfFs_setKey h2w hwfil _) (by rfl) _) (by rfl) _
    have hrt : jsonParse (serJson (.obj (setKey (setKey (setKey (ensuredKvs kvs0 ts)
        (strL "recommendations") (.arr (recs.filter validRec)))
        (strL "error") (.str (strL "No valid recommendations found in response")))
        (strL "status") (.str (strL "failed"))))) =
        some (.obj (setKey (setKey (setKey (ensuredKvs kvs0 ts)
          (strL "recommendations") (.arr (recs.filter validRec)))
          (strL "error") (.str (strL "No valid recommendations found in response")))
          (strL "status") (.str (strL "failed")))) := by
      refine jsonParse_serJson _ ?_
      simp [wfV, Bool.and_eq_true, hk1, hw1]
    refine ⟨setKey (setKey (setKey (ensuredKvs kvs0 ts)
      (strL "recommendations") (.arr (recs.filter validRec)))
      (strL "error") (.str (strL "No valid recommendations found in response")))
      (strL "status") (.str (strL "failed")), ?_, ?_, ?_, ?_⟩
    · simp [validateResponse, h2r, hne, hfb, hrt]
    · rw [getKey_setKey_ne _ _ _ _ (by decide), getKey_setKey_ne _ _ _ _ (by decide)]
      exact getKey_setKey_self _ _ _
    · intro _
      exact getKey_setKey_self _ _ _
    · intro hcontra
      exact Bool.noConfusion hcontra

/-- C1 witness: the amended theorem at the spec's example input. -/
theorem C1_witness :
    ∃ kvsOut, validateResponse (some (.obj c1Input)) (strL "W") = .ok (.obj kvsOut) ∧
      getKey kvsOut (strL "recommendations") =
        some (.arr ([c1RecX, c1RecBad].filter validRec)) ∧
      (([c1RecX, c1RecBad].filter validRec).isEmpty = true →
        getKey kvsOut (strL "status") = some (.str (strL "failed"))) ∧
      (([c1RecX, c1RecBad].filter validRec).isEmpty = false →
        getKey kvsOut (strL "status") = getKey c1Input (strL "status")) :=
  C1_validator_filter c1Input [c1RecX, c1RecBad] (strL "W") (by rfl) rfl rfl
